import Mathlib

/-! Graph traversals of `Data_Structures/`.

A shallow embedding of the four traversal programs

* `iterative_bfs.cpp`  (`iterativeBFS`),
* `iterative_dfs.cpp`  (`iterativeDFS`),
* `resursive_bfs.cpp`  (`recursiveBFS`, `startRecursiveBFS`),
* `resursive_dfs.cpp`  (`recursiveDFS`, `startRecursiveDFS`),

together with the properties of the emitted node sequences.

Modelling conventions.

* `char` node identifiers are `Char`.
* The global `std::unordered_map<char, std::vector<char>> graph` is an
  association list; only lookups by key are ever made, so the order of the
  entries is never observed.  `graph[node]` is `graphIndex`: as in C++ it
  default-inserts an empty vector when the key is missing, so the graph is
  threaded through every traversal as state.
* `std::set<char> visited` is a list used as a set: `visited.insert x` is
  `List.insert` and `visited.find(x) == visited.end()` is `x ∉ visited`.
* `std::queue<char>` is a list with `push` at the back and `front`/`pop`
  at the head; `std::stack<char>` is a list with `push`/`top`/`pop` at the head.
* `std::cout << node << " "` appends `node` to the emitted sequence `out`.
* A `while` loop is `whileLoop` and carries a bound on the number of
  iterations; a recursive function carries a bound on the recursion depth.
  The result is `none` when the bound is exhausted.  Every statement below
  about an emitted sequence exhibits a bound for which the run completes.
-/

namespace Traversal

/-- Node identifier (`char`). -/
abbrev Node := Char

/-- Type of the adjacency store `std::unordered_map<char, std::vector<char>>`. -/
abbrev Graph := List (Node × List Node)

/-- The graph literal shared by the four programs. -/
def graph : Graph :=
  [('A', ['B', 'C']),
   ('B', ['A', 'D', 'E']),
   ('C', ['A', 'F']),
   ('D', ['B']),
   ('E', ['B', 'F']),
   ('F', ['C', 'E'])]

/-- The lookup `g[node]` (`operator[]` of `std::unordered_map`): the stored neighbour
vector and the store afterwards; a missing key is inserted with an empty
vector. -/
def graphIndex (g : Graph) (node : Node) : List Node × Graph :=
  match g.lookup node with
  | some ns => (ns, g)
  | none => ([], g ++ [(node, [])])

/-- The neighbour list stored for `node`; a missing key has no neighbours. -/
def neighbors (g : Graph) (node : Node) : List Node :=
  (g.lookup node).getD []

/-- A `while (cond) body` loop run for at most `fuel` iterations: `some` of
the state at loop exit, `none` if the guard still holds after `fuel`
iterations. -/
def whileLoop {σ : Type} (cond : σ → Bool) (body : σ → σ) : Nat → σ → Option σ
  | 0, s => if cond s then none else some s
  | fuel + 1, s => if cond s then whileLoop cond body fuel (body s) else some s

/-! ## Breadth-first search -/

/-- Program state of the BFS programs: the global graph, the local queue and
visited set, and the sequence written so far. -/
structure BFSState where
  graph : Graph
  queue : List Node
  visited : List Node
  out : List Node

/-- One pass of `for (char neighbor : graph[node])` in the BFS programs:
an unvisited neighbour is pushed on the queue and marked visited. -/
def bfsVisit (qv : List Node × List Node) (neighbor : Node) : List Node × List Node :=
  if neighbor ∈ qv.2 then qv else (qv.1 ++ [neighbor], qv.2.insert neighbor)

/-- Guard `!queue.empty()` of the loop of `iterativeBFS`. -/
def bfsCond (s : BFSState) : Bool := !s.queue.isEmpty

/-- Body of the loop of `iterativeBFS` (lines 24-35). -/
def bfsBody (s : BFSState) : BFSState :=
  match s.queue with
  | [] => s
  | node :: rest =>
    let (ns, g) := graphIndex s.graph node
    let (queue, visited) := ns.foldl bfsVisit (rest, s.visited)
    { graph := g, queue := queue, visited := visited, out := s.out ++ [node] }

/-- State of `iterativeBFS` on entry to the loop (lines 17-21). -/
def bfsInit (g : Graph) (startNode : Node) : BFSState :=
  { graph := g, queue := [startNode], visited := [startNode], out := [] }

/-- The call `iterativeBFS(startNode)` run on the store `g`: the emitted sequence and
the store afterwards. -/
def iterativeBFS (fuel : Nat) (g : Graph) (startNode : Node) : Option (List Node × Graph) :=
  (whileLoop bfsCond bfsBody fuel (bfsInit g startNode)).map fun s => (s.out, s.graph)

/-- The call `recursiveBFS(queue, visited)` of `resursive_bfs.cpp`; `fuel` bounds the
depth of the self-recursion. -/
def recursiveBFS : Nat → BFSState → Option BFSState
  | 0, s =>
    match s.queue with
    | [] => some s
    | _ :: _ => none
  | fuel + 1, s =>
    match s.queue with
    | [] => some s
    | node :: rest =>
      let (ns, g) := graphIndex s.graph node
      let (queue, visited) := ns.foldl bfsVisit (rest, s.visited)
      recursiveBFS fuel
        { graph := g, queue := queue, visited := visited, out := s.out ++ [node] }

/-- The call `startRecursiveBFS(startNode)` run on the store `g`. -/
def startRecursiveBFS (fuel : Nat) (g : Graph) (startNode : Node) :
    Option (List Node × Graph) :=
  (recursiveBFS fuel
    { graph := g, queue := [startNode], visited := [startNode], out := [] }).map
    fun s => (s.out, s.graph)

/-! ## Depth-first search -/

/-- Program state of `iterativeDFS`. -/
structure DFSState where
  graph : Graph
  stack : List Node
  visited : List Node
  out : List Node

/-- One pass of the reverse-iterator loop of `iterativeDFS` (lines 33-37):
a neighbour not yet visited is pushed on the stack. -/
def dfsPush (visited : List Node) (stack : List Node) (neighbor : Node) : List Node :=
  if neighbor ∈ visited then stack else neighbor :: stack

/-- Guard `!stack.empty()` of the loop of `iterativeDFS`. -/
def dfsCond (s : DFSState) : Bool := !s.stack.isEmpty

/-- Body of the loop of `iterativeDFS` (lines 24-38).  The repeated
`graph[node]` of the loop header all index the same key, so only the first
can insert; it is evaluated once here. -/
def dfsBody (s : DFSState) : DFSState :=
  match s.stack with
  | [] => s
  | node :: rest =>
    if node ∈ s.visited then { s with stack := rest }
    else
      let visited := s.visited.insert node
      let (ns, g) := graphIndex s.graph node
      { graph := g, stack := ns.reverse.foldl (dfsPush visited) rest,
        visited := visited, out := s.out ++ [node] }

/-- State of `iterativeDFS` on entry to the loop (lines 18-21). -/
def dfsInit (g : Graph) (startNode : Node) : DFSState :=
  { graph := g, stack := [startNode], visited := [], out := [] }

/-- The call `iterativeDFS(startNode)` run on the store `g`: the emitted sequence and
the store afterwards. -/
def iterativeDFS (fuel : Nat) (g : Graph) (startNode : Node) : Option (List Node × Graph) :=
  (whileLoop dfsCond dfsBody fuel (dfsInit g startNode)).map fun s => (s.out, s.graph)

/-- Program state of the recursive DFS: the global graph, the visited set
passed by reference, and the sequence written so far. -/
structure RecState where
  graph : Graph
  visited : List Node
  out : List Node

/-- The call `recursiveDFS(node, visited)` of `resursive_dfs.cpp`; `fuel` bounds the
depth of the recursion. -/
def recursiveDFS : Nat → Node → RecState → Option RecState
  | 0, _, _ => none
  | fuel + 1, node, s =>
    let visited := s.visited.insert node
    let out := s.out ++ [node]
    let (ns, g) := graphIndex s.graph node
    ns.foldlM
      (fun st neighbor =>
        if neighbor ∈ st.visited then some st else recursiveDFS fuel neighbor st)
      { graph := g, visited := visited, out := out }

/-- The call `startRecursiveDFS(startNode)` run on the store `g`. -/
def startRecursiveDFS (fuel : Nat) (g : Graph) (startNode : Node) :
    Option (List Node × Graph) :=
  (recursiveDFS fuel startNode { graph := g, visited := [], out := [] }).map
    fun s => (s.out, s.graph)


/-! ## Notions used to state the properties -/

/-- Edge relation of the store: `v` is listed among the neighbours of `u`. -/
def Edge (g : Graph) (u v : Node) : Prop := v ∈ neighbors g u

/-- Reachability from `start` by following stored neighbour lists
(`start` itself included). -/
def Reachable (g : Graph) (start v : Node) : Prop :=
  Relation.ReflTransGen (Edge g) start v

/-- There is a walk of exactly `n` edges from `start` to the node. -/
inductive ReachIn (g : Graph) (start : Node) : Nat → Node → Prop
  | zero : ReachIn g start 0 start
  | succ {n : Nat} {u v : Node} : ReachIn g start n u → v ∈ neighbors g u →
      ReachIn g start (n + 1) v

/-- The shortest-path distance (number of edges) from `start` to `v` is `n`. -/
def IsDist (g : Graph) (start v : Node) (n : Nat) : Prop :=
  ReachIn g start n v ∧ ∀ m, ReachIn g start m v → n ≤ m

/-- The store `g` is the store `g0` after `graph[k]` has been evaluated for
every `k` in `looked`: every key of `g0` keeps its list, and a node of `looked`
that was not a key has become a key with an empty list. -/
def StoreAfter (g0 : Graph) (looked : List Node) (g : Graph) : Prop :=
  ∀ k, g.lookup k = if g0.lookup k = none ∧ k ∈ looked then some [] else g0.lookup k

/-- Every node that occurs in a neighbour list of the store. -/
def targets (g : Graph) : List Node := g.flatMap Prod.snd

/-- Loop invariant of the BFS loop started at `start` on the store `g0`, with
`lev` the layer assigned to each discovered node.  The emitted nodes followed
by the queued nodes are pairwise distinct, are exactly the visited nodes, are
in order of layer, and every neighbour of an emitted node is discovered. -/
structure BFSInv (g0 : Graph) (start : Node) (lev : Node → Nat) (s : BFSState) : Prop where
  store : StoreAfter g0 s.out s.graph
  nodup : (s.out ++ s.queue).Nodup
  visited : ∀ x, x ∈ s.visited ↔ x ∈ s.out ++ s.queue
  reach : ∀ x ∈ s.out ++ s.queue, ReachIn g0 start (lev x) x
  sorted : (s.out ++ s.queue).Pairwise (fun a b => lev a ≤ lev b)
  near : ∀ x ∈ s.out ++ s.queue, ∀ u ∈ s.queue, lev x ≤ lev u + 1
  closed : ∀ u ∈ s.out, ∀ nb ∈ neighbors g0 u,
    nb ∈ s.out ++ s.queue ∧ lev nb ≤ lev u + 1
  start : start ∈ s.out ++ s.queue ∧ lev start = 0

/-- The neighbour loop of `recursiveDFS` (lines 23-27), the recursive calls
bounded in depth by `fuel`. -/
def recursiveDFSLoop (fuel : Nat) (ns : List Node) (s : RecState) : Option RecState :=
  ns.foldlM
    (fun st neighbor =>
      if neighbor ∈ st.visited then some st else recursiveDFS fuel neighbor st)
    s

/-- Loop invariant of the loop of `iterativeDFS` started at `start` on the
store `g0`: the emitted nodes are pairwise distinct and are exactly the visited
nodes, everything emitted or stacked is reachable, and every neighbour of an
emitted node is emitted or still on the stack. -/
structure DFSInv (g0 : Graph) (start : Node) (s : DFSState) : Prop where
  store : StoreAfter g0 s.out s.graph
  nodup : s.out.Nodup
  visited : ∀ x, x ∈ s.visited ↔ x ∈ s.out
  reachOut : ∀ x ∈ s.out, Reachable g0 start x
  reachStack : ∀ x ∈ s.stack, Reachable g0 start x
  closed : ∀ u ∈ s.out, ∀ nb ∈ neighbors g0 u, nb ∈ s.out ∨ nb ∈ s.stack
  start : start ∈ s.out ∨ start ∈ s.stack

/-- Number of nodes listed as a neighbour in `g0` that are not in `visited`. -/
def unvisitedCount (g0 : Graph) (visited : List Node) : Nat :=
  ((targets g0).toFinset \ visited.toFinset).card

/-! ## The text written by the programs -/

/-- Text written by the statements `std::cout << node << " "` of a traversal
that emitted `out`: every node identifier followed by one space. -/
def printed (out : List Node) : String :=
  String.mk (out.flatMap fun node => [node, ' '])

/-- Text with a single space between consecutive node identifiers and
nothing after the last one. -/
def spaceSeparated (out : List Node) : String :=
  String.mk ((out.map fun node => [node]).intersperse [' ']).flatten

/-- Standard output of `main` of `iterative_bfs.cpp`: the label, the
emissions of `iterativeBFS('A')`, then `std::endl`. -/
def mainIterativeBFS (fuel : Nat) : Option String :=
  (iterativeBFS fuel graph 'A').map fun r =>
    "Iterative BFS starting from A: " ++ printed r.1 ++ "\n"

/-- Standard output of `main` of `iterative_dfs.cpp`. -/
def mainIterativeDFS (fuel : Nat) : Option String :=
  (iterativeDFS fuel graph 'A').map fun r =>
    "Iterative DFS starting from A: " ++ printed r.1 ++ "\n"

/-- Standard output of `main` of `resursive_bfs.cpp`. -/
def mainRecursiveBFS (fuel : Nat) : Option String :=
  (startRecursiveBFS fuel graph 'A').map fun r =>
    "Recursive BFS starting from A: " ++ printed r.1 ++ "\n"

/-- Standard output of `main` of `resursive_dfs.cpp`. -/
def mainRecursiveDFS (fuel : Nat) : Option String :=
  (startRecursiveDFS fuel graph 'A').map fun r =>
    "Recursive DFS starting from A: " ++ printed r.1 ++ "\n"

/-- The graph literal changed only in the neighbour list of `A`, stored as
`C, B` instead of `B, C`. -/
def graphSwapped : Graph :=
  [('A', ['C', 'B']),
   ('B', ['A', 'D', 'E']),
   ('C', ['A', 'F']),
   ('D', ['B']),
   ('E', ['B', 'F']),
   ('F', ['C', 'E'])]

/-! ## The iterative DFS as the specification words it -/

/-- State of the iterative DFS of section 4.3 of the specification: the
frontier, the visited set and the emitted sequence. -/
structure SpecDFSState where
  stack : List Node
  visited : List Node
  out : List Node

/-- Guard of the specified loop: the frontier is non-empty. -/
def specDfsCond (s : SpecDFSState) : Bool := !s.stack.isEmpty

/-- One iteration of the algorithm of section 4.3 in the specification's
words: pop the top node; if already visited, discard it; otherwise mark it
visited, emit it, then push its neighbours in reverse store order, every one
of them, with no check before the push. -/
def specDfsBody (g : Graph) (s : SpecDFSState) : SpecDFSState :=
  match s.stack with
  | [] => s
  | node :: rest =>
    if node ∈ s.visited then { s with stack := rest }
    else
      { stack := (neighbors g node).reverse.foldl (fun st nb => nb :: st) rest,
        visited := s.visited.insert node,
        out := s.out ++ [node] }

/-- The specified iterative DFS from `startNode`: the emitted sequence. -/
def specIterativeDFS (fuel : Nat) (g : Graph) (startNode : Node) : Option (List Node) :=
  (whileLoop specDfsCond (specDfsBody g) fuel
    { stack := [startNode], visited := [], out := [] }).map fun s => s.out

/-! ## States met during a run -/

/-- The states in which the guard of `while (cond) body` is evaluated in a
run entered in state `s0`: `s0` itself and, after each such state in which the
guard holds, the state the body leaves.  Those in which the guard holds are the
states at the start of an iteration. -/
inductive AtLoopHead {σ : Type} (cond : σ → Bool) (body : σ → σ) (s0 : σ) : σ → Prop
  | entry : AtLoopHead cond body s0 s0
  | next {s : σ} : AtLoopHead cond body s0 s → cond s = true →
      AtLoopHead cond body s0 (body s)

/-- The states with which `recursiveBFS` is called in a run started by a call
in state `s0`: that call and, from a call with a non-empty queue, the
self-recursive call of line 33. -/
inductive RecBFSCall (s0 : BFSState) : BFSState → Prop
  | first : RecBFSCall s0 s0
  | inner {s : BFSState} {node : Node} {rest : List Node} :
      RecBFSCall s0 s → s.queue = node :: rest →
      RecBFSCall s0
        { graph := (graphIndex s.graph node).2,
          queue := ((graphIndex s.graph node).1.foldl bfsVisit (rest, s.visited)).1,
          visited := ((graphIndex s.graph node).1.foldl bfsVisit (rest, s.visited)).2,
          out := s.out ++ [node] }

/-- The nodes pushed on the stack, in push order, by the iteration of the
loop of `iterativeDFS` that starts in state `s` (lines 33-37). -/
def dfsPushes (s : DFSState) : List Node :=
  match s.stack with
  | [] => []
  | node :: _ =>
    if node ∈ s.visited then []
    else
      (graphIndex s.graph node).1.reverse.filter
        fun neighbor => decide (neighbor ∉ s.visited.insert node)

/-- The nodes pushed on the stack, in push order, by the first `fuel`
iterations of the loop of `iterativeDFS` from state `s`. -/
def dfsPushLog : Nat → DFSState → List Node
  | 0, _ => []
  | fuel + 1, s => if dfsCond s then dfsPushes s ++ dfsPushLog fuel (dfsBody s) else []

/-- The distinct entries of a list, each kept at its first occurrence. -/
def firstOccurrences : List Node → List Node
  | [] => []
  | x :: xs => x :: (firstOccurrences xs).filter fun y => decide (y ≠ x)

/-- Total length of the neighbour lists stored for `nodes`. -/
def neighborTotal (g : Graph) (nodes : List Node) : Nat :=
  (nodes.map fun u => (neighbors g u).length).sum

/-- A closed graph: every node in any neighbour list is itself a key. -/
def Closed (g : Graph) : Prop := ∀ x ∈ targets g, (g.lookup x).isSome = true

/-! ## The store and `graph[node]` -/

theorem graphIndex_fst (g : Graph) (k : Node) : (graphIndex g k).1 = neighbors g k := by
  unfold graphIndex neighbors
  cases h : g.lookup k <;> simp

theorem graphIndex_lookup (g : Graph) (k x : Node) :
    (graphIndex g k).2.lookup x
      = if g.lookup k = none ∧ x = k then some [] else g.lookup x := by
  unfold graphIndex
  cases h : g.lookup k with
  | some ns => simp
  | none =>
    simp only [List.lookup_append, true_and]
    by_cases hx : x = k
    · subst hx
      simp [h, List.lookup_cons]
    · have hb : (x == k) = false := by simpa using hx
      simp [hx, List.lookup_cons, hb]

theorem neighbors_graphIndex (g : Graph) (k x : Node) :
    neighbors (graphIndex g k).2 x = neighbors g x := by
  unfold neighbors
  rw [graphIndex_lookup]
  split
  · next h => rw [h.2, h.1]; rfl
  · rfl

/-- Evaluating `graph[k]` a second time returns the same list and leaves the
store as the first evaluation left it. -/
theorem graphIndex_idem (g : Graph) (k : Node) :
    graphIndex (graphIndex g k).2 k = graphIndex g k := by
  have h := graphIndex_lookup g k k
  cases hk : g.lookup k with
  | some ns => simp [graphIndex, hk]
  | none =>
    rw [hk] at h
    simp only [and_self, if_true] at h
    have h2 : graphIndex g k = ([], g ++ [(k, [])]) := by simp [graphIndex, hk]
    rw [h2] at h ⊢
    simp only at h
    simp [graphIndex, h]

theorem storeAfter_neighbors_eq {g0 g : Graph} {looked : List Node}
    (h : StoreAfter g0 looked g) (x : Node) : neighbors g x = neighbors g0 x := by
  unfold neighbors
  rw [h x]
  split
  · next hc => rw [hc.1]; rfl
  · rfl

theorem storeAfter_init (g0 : Graph) : StoreAfter g0 [] g0 := by
  intro k; simp

theorem storeAfter_index {g0 g : Graph} {looked : List Node}
    (h : StoreAfter g0 looked g) (node : Node) :
    StoreAfter g0 (looked ++ [node]) (graphIndex g node).2 := by
  intro k
  rw [graphIndex_lookup, h k, h node]
  by_cases hk : k = node
  · subst hk
    by_cases h0 : g0.lookup k = none
    · by_cases hm : k ∈ looked <;> simp [h0, hm]
    · simp [h0]
  · have hm : k ∈ looked ++ [node] ↔ k ∈ looked := by simp [hk]
    simp only [hk, hm, and_false, if_false]

theorem mem_targets_of_mem_neighbors {g : Graph} {u v : Node}
    (h : v ∈ neighbors g u) : v ∈ targets g := by
  unfold neighbors at h
  cases hl : g.lookup u with
  | none => simp [hl] at h
  | some ns =>
    simp only [hl, Option.getD_some] at h
    unfold targets
    rw [List.mem_flatMap]
    refine ⟨(u, ns), ?_, h⟩
    clear h
    induction g with
    | nil => simp at hl
    | cons p g ih =>
      obtain ⟨k, b⟩ := p
      rw [List.lookup_cons] at hl
      by_cases hk : (u == k) = true
      · simp only [hk] at hl
        have : u = k := by simpa using hk
        subst this
        simp at hl
        simp [hl]
      · simp only [hk] at hl
        exact List.mem_cons_of_mem _ (ih hl)

/-! ## Reachability -/

theorem reachIn_reachable {g : Graph} {start v : Node} {n : Nat}
    (h : ReachIn g start n v) : Reachable g start v := by
  induction h with
  | zero => exact Relation.ReflTransGen.refl
  | succ _ hv ih => exact Relation.ReflTransGen.tail ih hv

theorem reachable_reachIn {g : Graph} {start v : Node}
    (h : Reachable g start v) : ∃ n, ReachIn g start n v := by
  induction h with
  | refl => exact ⟨0, ReachIn.zero⟩
  | tail _ hv ih =>
    obtain ⟨n, hn⟩ := ih
    exact ⟨n + 1, ReachIn.succ hn hv⟩

theorem reachIn_mem_universe {g : Graph} {start v : Node} {n : Nat}
    (h : ReachIn g start n v) : v ∈ start :: targets g := by
  cases h with
  | zero => simp
  | succ _ hv => exact List.mem_cons_of_mem _ (mem_targets_of_mem_neighbors hv)

/-! ## `while` loops -/

theorem whileLoop_mono {σ : Type} (cond : σ → Bool) (body : σ → σ) :
    ∀ (n m : Nat) (s r : σ), whileLoop cond body n s = some r → n ≤ m →
      whileLoop cond body m s = some r := by
  intro n
  induction n with
  | zero =>
    intro m s r h _
    unfold whileLoop at h
    by_cases hc : cond s = true
    · simp [hc] at h
    · cases m <;> (unfold whileLoop; simpa [hc] using h)
  | succ n ih =>
    intro m s r h hm
    obtain ⟨m, rfl⟩ : ∃ k, m = k + 1 := ⟨m - 1, by omega⟩
    unfold whileLoop at h ⊢
    by_cases hc : cond s = true
    · simp only [hc, if_true] at h ⊢
      exact ih m _ _ h (by omega)
    · simpa [hc] using h

theorem whileLoop_det {σ : Type} (cond : σ → Bool) (body : σ → σ)
    (n m : Nat) (s r r' : σ) (h : whileLoop cond body n s = some r)
    (h' : whileLoop cond body m s = some r') : r = r' := by
  have a := whileLoop_mono cond body n (max n m) s r h (le_max_left _ _)
  have b := whileLoop_mono cond body m (max n m) s r' h' (le_max_right _ _)
  rw [a] at b
  exact Option.some.inj b

/-- Invariant rule: at loop exit the invariant holds and the guard fails. -/
theorem whileLoop_inv {σ : Type} (cond : σ → Bool) (body : σ → σ) (Inv : σ → Prop)
    (hstep : ∀ s, Inv s → cond s = true → Inv (body s)) :
    ∀ (n : Nat) (s r : σ), Inv s → whileLoop cond body n s = some r →
      Inv r ∧ cond r = false := by
  intro n
  induction n with
  | zero =>
    intro s r hs h
    unfold whileLoop at h
    by_cases hc : cond s = true
    · simp [hc] at h
    · simp only [hc] at h
      cases Option.some.inj h
      exact ⟨hs, by simpa using hc⟩
  | succ n ih =>
    intro s r hs h
    unfold whileLoop at h
    by_cases hc : cond s = true
    · simp only [hc, if_true] at h
      exact ih _ _ (hstep s hs hc) h
    · simp only [hc] at h
      cases Option.some.inj h
      exact ⟨hs, by simpa using hc⟩

/-- Variant rule: a measure that strictly decreases on every iteration
bounds the number of iterations. -/
theorem whileLoop_terminates {σ : Type} (cond : σ → Bool) (body : σ → σ)
    (Inv : σ → Prop) (μ : σ → Nat)
    (hstep : ∀ s, Inv s → cond s = true → Inv (body s) ∧ μ (body s) < μ s) :
    ∀ (n : Nat) (s : σ), Inv s → μ s ≤ n → ∃ r, whileLoop cond body n s = some r := by
  intro n
  induction n with
  | zero =>
    intro s hs hn
    unfold whileLoop
    by_cases hc : cond s = true
    · have := (hstep s hs hc).2
      omega
    · exact ⟨s, by simp [hc]⟩
  | succ n ih =>
    intro s hs hn
    unfold whileLoop
    by_cases hc : cond s = true
    · simp only [hc, if_true]
      have := hstep s hs hc
      exact ih _ this.1 (by omega)
    · exact ⟨s, by simp [hc]⟩

/-! ## Breadth-first search: the loop -/

/-- Effect of the neighbour loop of the BFS programs: the queue is extended
by the list `new` of the neighbours met for the first time. -/
theorem bfsVisit_foldl (ns : List Node) : ∀ (q V : List Node), ∃ new : List Node,
    (ns.foldl bfsVisit (q, V)).1 = q ++ new ∧
    (∀ x, x ∈ (ns.foldl bfsVisit (q, V)).2 ↔ x ∈ V ∨ x ∈ new) ∧
    new.Nodup ∧ (∀ x ∈ new, x ∉ V ∧ x ∈ ns) ∧ (∀ x ∈ ns, x ∈ V ∨ x ∈ new) := by
  induction ns with
  | nil =>
    intro q V
    exact ⟨[], by simp⟩
  | cons nb ns ih =>
    intro q V
    rw [List.foldl_cons]
    by_cases hv : nb ∈ V
    · have hb : bfsVisit (q, V) nb = (q, V) := by simp [bfsVisit, hv]
      rw [hb]
      obtain ⟨new, h1, h2, h3, h4, h5⟩ := ih q V
      refine ⟨new, h1, h2, h3, ?_, ?_⟩
      · intro x hx
        exact ⟨(h4 x hx).1, List.mem_cons_of_mem _ (h4 x hx).2⟩
      · intro x hx
        rcases List.mem_cons.1 hx with rfl | hx
        · exact Or.inl hv
        · exact h5 x hx
    · have hb : bfsVisit (q, V) nb = (q ++ [nb], V.insert nb) := by simp [bfsVisit, hv]
      rw [hb]
      obtain ⟨new, h1, h2, h3, h4, h5⟩ := ih (q ++ [nb]) (V.insert nb)
      refine ⟨nb :: new, ?_, ?_, ?_, ?_, ?_⟩
      · rw [h1]; simp
      · intro x
        rw [h2 x, List.mem_insert_iff, List.mem_cons]
        tauto
      · refine List.nodup_cons.2 ⟨?_, h3⟩
        intro hmem
        exact (h4 nb hmem).1 (List.mem_insert_iff.2 (Or.inl rfl))
      · intro x hx
        rcases List.mem_cons.1 hx with rfl | hx
        · exact ⟨hv, List.mem_cons_self _ _⟩
        · refine ⟨?_, List.mem_cons_of_mem _ (h4 x hx).2⟩
          intro hxV
          exact (h4 x hx).1 (List.mem_insert_iff.2 (Or.inr hxV))
      · intro x hx
        rcases List.mem_cons.1 hx with rfl | hx
        · exact Or.inr (List.mem_cons_self _ _)
        · rcases h5 x hx with h | h
          · rcases List.mem_insert_iff.1 h with rfl | h
            · exact Or.inr (List.mem_cons_self _ _)
            · exact Or.inl h
          · exact Or.inr (List.mem_cons_of_mem _ h)

theorem bfsCond_iff (s : BFSState) : bfsCond s = true ↔ ∃ node rest, s.queue = node :: rest := by
  unfold bfsCond
  cases h : s.queue <;> simp

theorem bfsCond_false_iff (s : BFSState) : bfsCond s = false ↔ s.queue = [] := by
  unfold bfsCond
  cases h : s.queue <;> simp

theorem bfsBody_cons (s : BFSState) (node : Node) (rest : List Node)
    (hq : s.queue = node :: rest) :
    bfsBody s =
      { graph := (graphIndex s.graph node).2,
        queue := ((neighbors s.graph node).foldl bfsVisit (rest, s.visited)).1,
        visited := ((neighbors s.graph node).foldl bfsVisit (rest, s.visited)).2,
        out := s.out ++ [node] } := by
  rw [← graphIndex_fst]
  unfold bfsBody
  rw [hq]

theorem bfsInv_init (g0 : Graph) (start : Node) :
    BFSInv g0 start (fun _ => 0) (bfsInit g0 start) where
  store := storeAfter_init g0
  nodup := by simp [bfsInit]
  visited := by simp [bfsInit]
  reach := by
    intro x hx
    have : x = start := by simpa [bfsInit] using hx
    subst this
    exact ReachIn.zero
  sorted := by simp [bfsInit]
  near := by simp
  closed := by simp [bfsInit]
  start := by simp [bfsInit]

/-- One iteration of the BFS loop keeps the invariant, for a layer assignment
extended to the newly queued nodes, and emits exactly one node. -/
theorem bfsInv_step {g0 : Graph} {start : Node} {lev : Node → Nat} {s : BFSState}
    (h : BFSInv g0 start lev s) (hc : bfsCond s = true) :
    (∃ lev2, BFSInv g0 start lev2 (bfsBody s)) ∧
      (bfsBody s).out.length = s.out.length + 1 := by
  obtain ⟨node, rest, hq⟩ := (bfsCond_iff s).1 hc
  have hbody := bfsBody_cons s node rest hq
  rw [storeAfter_neighbors_eq h.store] at hbody
  obtain ⟨new, h1, h2, h3, h4, h5⟩ := bfsVisit_foldl (neighbors g0 node) rest s.visited
  have hout : (bfsBody s).out = s.out ++ [node] := by rw [hbody]
  have hqueue : (bfsBody s).queue = rest ++ new := by rw [hbody]; exact h1
  have hvis : ∀ x, x ∈ (bfsBody s).visited ↔ x ∈ s.visited ∨ x ∈ new := by
    rw [hbody]; exact h2
  have hgraph : (bfsBody s).graph = (graphIndex s.graph node).2 := by rw [hbody]
  have hL : (bfsBody s).out ++ (bfsBody s).queue = (s.out ++ s.queue) ++ new := by
    rw [hout, hqueue, hq]; simp
  have hnodeL : node ∈ s.out ++ s.queue := by rw [hq]; simp
  have hnodeQ : node ∈ s.queue := by rw [hq]; simp
  have hdisj : ∀ x ∈ new, x ∉ s.out ++ s.queue := fun x hx hxL =>
    (h4 x hx).1 ((h.visited x).2 hxL)
  have hrest : ∀ u ∈ rest, lev node ≤ lev u := by
    intro u hu
    have hs := h.sorted
    rw [hq, List.pairwise_append] at hs
    exact List.rel_of_pairwise_cons hs.2.1 hu
  refine ⟨⟨fun x => if x ∈ new then lev node + 1 else lev x, ?_⟩, by rw [hout]; simp⟩
  have levL : ∀ x ∈ s.out ++ s.queue,
      (fun x => if x ∈ new then lev node + 1 else lev x) x = lev x := by
    intro x hx
    have : x ∉ new := fun hn => hdisj x hn hx
    simp [this]
  have levN : ∀ x ∈ new,
      (fun x => if x ∈ new then lev node + 1 else lev x) x = lev node + 1 := by
    intro x hx
    simp [hx]
  generalize (fun x => if x ∈ new then lev node + 1 else lev x) = lev2 at levL levN
  have hle : ∀ x ∈ (s.out ++ s.queue) ++ new, lev2 x ≤ lev node + 1 := by
    intro x hx
    rcases List.mem_append.1 hx with hx | hx
    · rw [levL x hx]; exact h.near x hx node hnodeQ
    · rw [levN x hx]
  constructor
  · rw [hgraph, hout]; exact storeAfter_index h.store node
  · rw [hL, List.nodup_append]
    exact ⟨h.nodup, h3, fun x hx hn => hdisj x hn hx⟩
  · intro x
    rw [hvis, hL, h.visited x]
    simp only [List.mem_append]
  · intro x hx
    rw [hL] at hx
    rcases List.mem_append.1 hx with hx | hx
    · rw [levL x hx]; exact h.reach x hx
    · rw [levN x hx]
      have := h.reach node hnodeL
      exact ReachIn.succ this (h4 x hx).2
  · rw [hL, List.pairwise_append]
    refine ⟨?_, ?_, ?_⟩
    · refine h.sorted.imp_of_mem ?_
      intro a b ha hb hab
      rw [levL a ha, levL b hb]; exact hab
    · refine List.Pairwise.imp_of_mem ?_ (List.pairwise_of_forall (R := fun _ _ => True) (fun _ _ => trivial))
      intro a b ha hb _
      rw [levN a ha, levN b hb]
    · intro a ha b hb
      rw [levN b hb]
      exact hle a (List.mem_append_left _ ha)
  · intro x hx u hu
    rw [hL] at hx
    rw [hqueue] at hu
    have hxle := hle x hx
    have : lev node ≤ lev2 u := by
      rcases List.mem_append.1 hu with hu | hu
      · have huL : u ∈ s.out ++ s.queue := by rw [hq]; simp [hu]
        rw [levL u huL]; exact hrest u hu
      · rw [levN u hu]; omega
    omega
  · intro u hu nb hnb
    rw [hout] at hu
    rw [hL]
    have huL : u ∈ s.out ++ s.queue := by
      rcases List.mem_append.1 hu with hu | hu
      · exact List.mem_append_left _ hu
      · have : u = node := by simpa using hu
        rw [this]; exact hnodeL
    rw [levL u huL]
    rcases List.mem_append.1 hu with hu | hu
    · have := h.closed u hu nb hnb
      exact ⟨List.mem_append_left _ this.1, by rw [levL nb this.1]; exact this.2⟩
    · have hun : u = node := by simpa using hu
      subst hun
      rcases h5 nb hnb with hv | hn
      · have hnbL := (h.visited nb).1 hv
        exact ⟨List.mem_append_left _ hnbL, by rw [levL nb hnbL]; exact h.near nb hnbL u hnodeQ⟩
      · exact ⟨List.mem_append_right _ hn, by rw [levN nb hn]⟩
  · rw [hL]
    exact ⟨List.mem_append_left _ h.start.1, by rw [levL start h.start.1]; exact h.start.2⟩

/-- When each iteration increases the counter `c` by one, the loop that exits
in state `r` made exactly `c r - c s` iterations. -/
theorem whileLoop_count {σ : Type} (cond : σ → Bool) (body : σ → σ) (c : σ → Nat)
    (hstep : ∀ s, cond s = true → c (body s) = c s + 1) :
    ∀ (n : Nat) (s r : σ), whileLoop cond body n s = some r →
      c s ≤ c r ∧ ∀ m, (whileLoop cond body m s).isSome = true ↔ c r - c s ≤ m := by
  intro n
  induction n with
  | zero =>
    intro s r h
    unfold whileLoop at h
    by_cases hc : cond s = true
    · simp [hc] at h
    · simp only [hc] at h
      cases Option.some.inj h
      refine ⟨le_refl _, fun m => ?_⟩
      cases m <;> simp [whileLoop, hc]
  | succ n ih =>
    intro s r h
    unfold whileLoop at h
    by_cases hc : cond s = true
    · simp only [hc, if_true] at h
      obtain ⟨hle, hm⟩ := ih _ _ h
      have hs := hstep s hc
      refine ⟨by omega, fun m => ?_⟩
      cases m with
      | zero =>
        simp only [whileLoop, hc, if_true]
        constructor
        · intro hf; simp at hf
        · intro hf; omega
      | succ m =>
        simp only [whileLoop, hc, if_true]
        rw [hm m]
        omega
    · simp only [hc] at h
      cases Option.some.inj h
      refine ⟨le_refl _, fun m => ?_⟩
      cases m <;> simp [whileLoop, hc]

/-- The BFS loop exits, in a state that satisfies the invariant with an empty
queue, after as many iterations as nodes were emitted. -/
theorem bfs_run (g0 : Graph) (start : Node) :
    ∃ (r : BFSState) (lev : Node → Nat),
      whileLoop bfsCond bfsBody r.out.length (bfsInit g0 start) = some r ∧
      BFSInv g0 start lev r ∧ r.queue = [] ∧
      ∀ m, (whileLoop bfsCond bfsBody m (bfsInit g0 start)).isSome = true ↔
        r.out.length ≤ m := by
  have hterm := whileLoop_terminates bfsCond bfsBody
    (fun s => ∃ lev, BFSInv g0 start lev s)
    (fun s => (start :: targets g0).length + 1 - s.out.length)
    (by
      intro s ⟨lev, hs⟩ hc
      obtain ⟨hinv, hlen⟩ := bfsInv_step hs hc
      refine ⟨hinv, ?_⟩
      obtain ⟨node, rest, hq⟩ := (bfsCond_iff s).1 hc
      have hsub : s.out ++ s.queue ⊆ start :: targets g0 :=
        fun x hx => reachIn_mem_universe (hs.reach x hx)
      have hle := (List.subperm_of_subset hs.nodup hsub).length_le
      rw [List.length_append, hq, List.length_cons] at hle
      show (start :: targets g0).length + 1 - (bfsBody s).out.length
        < (start :: targets g0).length + 1 - s.out.length
      rw [hlen]
      omega)
    _ (bfsInit g0 start) ⟨_, bfsInv_init g0 start⟩ (le_refl _)
  obtain ⟨r, hr⟩ := hterm
  obtain ⟨⟨lev, hinv⟩, hexit⟩ := whileLoop_inv bfsCond bfsBody
    (fun s => ∃ lev, BFSInv g0 start lev s)
    (fun s ⟨lev, hs⟩ hc => (bfsInv_step hs hc).1) _ _ _ ⟨_, bfsInv_init g0 start⟩ hr
  have hcount := whileLoop_count bfsCond bfsBody (fun s => s.out.length)
    (by
      intro s hc
      obtain ⟨node, rest, hq⟩ := (bfsCond_iff s).1 hc
      show (bfsBody s).out.length = _
      rw [bfsBody_cons s node rest hq]
      simp) _ _ _ hr
  have h0 : (bfsInit g0 start).out.length = 0 := rfl
  simp only [h0, Nat.sub_zero] at hcount
  refine ⟨r, lev, ?_, hinv, (bfsCond_false_iff r).1 hexit, hcount.2⟩
  have := (hcount.2 r.out.length).2 (le_refl _)
  obtain ⟨r2, hr2⟩ := Option.isSome_iff_exists.1 this
  rw [hr2, whileLoop_det bfsCond bfsBody _ _ _ _ _ hr hr2]

/-- At loop exit every node at `n` edges from `start` has been emitted, at a
layer no greater than `n`. -/
theorem bfsInv_complete {g0 : Graph} {start : Node} {lev : Node → Nat} {r : BFSState}
    (h : BFSInv g0 start lev r) (hq : r.queue = []) :
    ∀ (n : Nat) (v : Node), ReachIn g0 start n v → v ∈ r.out ∧ lev v ≤ n := by
  intro n v hv
  induction hv with
  | zero =>
    have := h.start
    rw [hq, List.append_nil] at this
    exact ⟨this.1, by omega⟩
  | succ _ hnb ih =>
    have := h.closed _ ih.1 _ hnb
    rw [hq, List.append_nil] at this
    exact ⟨this.1, by omega⟩

theorem bfsInv_isDist {g0 : Graph} {start : Node} {lev : Node → Nat} {r : BFSState}
    (h : BFSInv g0 start lev r) (hq : r.queue = []) (v : Node) (hv : v ∈ r.out) :
    IsDist g0 start v (lev v) :=
  ⟨h.reach v (List.mem_append_left _ hv), fun m hm => (bfsInv_complete h hq m v hm).2⟩

theorem bfsInv_mem_out_iff {g0 : Graph} {start : Node} {lev : Node → Nat} {r : BFSState}
    (h : BFSInv g0 start lev r) (hq : r.queue = []) (v : Node) :
    v ∈ r.out ↔ Reachable g0 start v := by
  constructor
  · intro hv
    exact reachIn_reachable (h.reach v (List.mem_append_left _ hv))
  · intro hv
    obtain ⟨n, hn⟩ := reachable_reachIn hv
    exact (bfsInv_complete h hq n v hn).1

theorem iterativeBFS_of_loop {g0 : Graph} {start : Node} {n : Nat} {r : BFSState}
    (h : whileLoop bfsCond bfsBody n (bfsInit g0 start) = some r) :
    iterativeBFS n g0 start = some (r.out, r.graph) := by
  simp [iterativeBFS, h]

/-- C1. The sequence emitted by `iterativeBFS(start)` contains no node twice,
and a node occurs in it if and only if it is reachable from `start` by
following stored neighbour lists. -/
theorem iterativeBFS_emits_reachable (g : Graph) (start : Node) :
    ∃ (fuel : Nat) (out : List Node) (g2 : Graph),
      iterativeBFS fuel g start = some (out, g2) ∧
      out.Nodup ∧ ∀ v, v ∈ out ↔ Reachable g start v := by
  obtain ⟨r, lev, hr, hinv, hq, _⟩ := bfs_run g start
  refine ⟨_, r.out, r.graph, iterativeBFS_of_loop hr, ?_, bfsInv_mem_out_iff hinv hq⟩
  have := hinv.nodup
  rwa [hq, List.append_nil] at this

/-- C2. The sequence emitted by `iterativeBFS(start)` is in BFS layer order:
whenever `u` is emitted before `v`, both have a shortest-path distance from
`start` and that of `u` is at most that of `v`. -/
theorem iterativeBFS_layer_order (g : Graph) (start : Node) :
    ∃ (fuel : Nat) (out : List Node) (g2 : Graph),
      iterativeBFS fuel g start = some (out, g2) ∧
      out.Pairwise (fun u v => ∃ a b, IsDist g start u a ∧ IsDist g start v b ∧ a ≤ b) := by
  obtain ⟨r, lev, hr, hinv, hq, _⟩ := bfs_run g start
  refine ⟨_, r.out, r.graph, iterativeBFS_of_loop hr, ?_⟩
  have hs := hinv.sorted
  rw [hq, List.append_nil] at hs
  refine hs.imp_of_mem ?_
  intro a b ha hb hab
  exact ⟨lev a, lev b, bfsInv_isDist hinv hq a ha, bfsInv_isDist hinv hq b hb, hab⟩

/-- C9. The loop of `iterativeBFS` terminates: the set of nodes reachable
from `start` is finite, and the loop exits, with an empty queue, within `m`
iterations exactly when `m` is at least the number of reachable nodes, that
is, after exactly that many iterations. -/
theorem iterativeBFS_iterations (g : Graph) (start : Node) :
    Set.Finite {v | Reachable g start v} ∧
    ∃ r : BFSState,
      whileLoop bfsCond bfsBody (Set.ncard {v | Reachable g start v}) (bfsInit g start)
        = some r ∧
      r.queue = [] ∧
      ∀ m, (whileLoop bfsCond bfsBody m (bfsInit g start)).isSome = true ↔
        Set.ncard {v | Reachable g start v} ≤ m := by
  obtain ⟨r, lev, hr, hinv, hq, hm⟩ := bfs_run g start
  have hnd : r.out.Nodup := by
    have := hinv.nodup
    rwa [hq, List.append_nil] at this
  have hset : {v | Reachable g start v} = (↑r.out.toFinset : Set Node) := by
    ext v
    simp [bfsInv_mem_out_iff hinv hq v]
  have hcard : Set.ncard {v | Reachable g start v} = r.out.length := by
    rw [hset, Set.ncard_coe_Finset, List.toFinset_card_of_nodup hnd]
  refine ⟨by rw [hset]; exact Finset.finite_toSet _, ?_⟩
  rw [hcard]
  exact ⟨r, hr, hq, hm⟩

/-! ## Recursive breadth-first search -/

theorem recursiveBFS_eq_whileLoop :
    ∀ (n : Nat) (s : BFSState), recursiveBFS n s = whileLoop bfsCond bfsBody n s := by
  intro n
  induction n with
  | zero =>
    intro s
    unfold recursiveBFS whileLoop bfsCond
    cases hq : s.queue <;> simp
  | succ n ih =>
    intro s
    unfold recursiveBFS whileLoop
    cases hq : s.queue with
    | nil => simp [bfsCond, hq]
    | cons node rest =>
      have hc : bfsCond s = true := (bfsCond_iff s).2 ⟨node, rest, hq⟩
      simp only [hc, if_true]
      rw [ih]
      congr 1
      unfold bfsBody
      rw [hq]

theorem startRecursiveBFS_eq (fuel : Nat) (g : Graph) (start : Node) :
    startRecursiveBFS fuel g start = iterativeBFS fuel g start := by
  unfold startRecursiveBFS iterativeBFS
  rw [recursiveBFS_eq_whileLoop]
  rfl

/-- C5. `startRecursiveBFS(start)` emits exactly the same sequence as
`iterativeBFS(start)` (and leaves the same store): the two runs agree for
every bound, and both complete. -/
theorem startRecursiveBFS_refines_iterativeBFS (g : Graph) (start : Node) :
    (∀ fuel, startRecursiveBFS fuel g start = iterativeBFS fuel g start) ∧
    ∃ (fuel : Nat) (out : List Node) (g2 : Graph),
      startRecursiveBFS fuel g start = some (out, g2) ∧
      iterativeBFS fuel g start = some (out, g2) := by
  refine ⟨fun fuel => startRecursiveBFS_eq fuel g start, ?_⟩
  obtain ⟨r, lev, hr, _⟩ := bfs_run g start
  refine ⟨_, r.out, r.graph, ?_, iterativeBFS_of_loop hr⟩
  rw [startRecursiveBFS_eq]
  exact iterativeBFS_of_loop hr

/-! ## Depth-first search: the loop of `iterativeDFS` -/

/-- Effect of the reverse-iterator loop of `iterativeDFS`: the neighbours not
in `V` end up on top of the stack, in store order. -/
theorem dfsPush_foldl (V : List Node) (rest : List Node) (ns : List Node) :
    ns.reverse.foldl (dfsPush V) rest = ns.filter (fun x => decide (x ∉ V)) ++ rest := by
  induction ns with
  | nil => simp
  | cons nb ns ih =>
    rw [List.reverse_cons, List.foldl_append, ih]
    by_cases h : nb ∈ V <;> simp [dfsPush, h, List.filter_cons]

theorem dfsCond_iff (s : DFSState) : dfsCond s = true ↔ ∃ node rest, s.stack = node :: rest := by
  unfold dfsCond
  cases h : s.stack <;> simp

theorem dfsCond_false_iff (s : DFSState) : dfsCond s = false ↔ s.stack = [] := by
  unfold dfsCond
  cases h : s.stack <;> simp

theorem dfsBody_skip (s : DFSState) (node : Node) (rest : List Node)
    (hq : s.stack = node :: rest) (hv : node ∈ s.visited) :
    dfsBody s = { s with stack := rest } := by
  unfold dfsBody
  rw [hq]
  simp [hv]

theorem dfsBody_visit (s : DFSState) (node : Node) (rest : List Node)
    (hq : s.stack = node :: rest) (hv : node ∉ s.visited) :
    dfsBody s =
      { graph := (graphIndex s.graph node).2,
        stack := (neighbors s.graph node).filter
            (fun x => decide (x ∉ s.visited.insert node)) ++ rest,
        visited := s.visited.insert node,
        out := s.out ++ [node] } := by
  rw [← dfsPush_foldl, ← graphIndex_fst]
  unfold dfsBody
  rw [hq]
  simp [hv]

theorem whileLoop_step {σ : Type} (cond : σ → Bool) (body : σ → σ) (m : Nat) (s : σ)
    (hc : cond s = true) :
    whileLoop cond body (m + 1) s = whileLoop cond body m (body s) := by
  rw [whileLoop]
  simp [hc]

theorem whileLoop_exit {σ : Type} (cond : σ → Bool) (body : σ → σ) (m : Nat) (s : σ)
    (hc : cond s = false) : whileLoop cond body m s = some s := by
  cases m <;> simp [whileLoop, hc]

/-! ## Recursive depth-first search -/

theorem recursiveDFS_succ (fuel : Nat) (node : Node) (s : RecState) :
    recursiveDFS (fuel + 1) node s =
      recursiveDFSLoop fuel (neighbors s.graph node)
        { graph := (graphIndex s.graph node).2, visited := s.visited.insert node,
          out := s.out ++ [node] } := by
  rw [← graphIndex_fst, recursiveDFS]
  rfl

theorem recursiveDFSLoop_nil (fuel : Nat) (s : RecState) :
    recursiveDFSLoop fuel [] s = some s := rfl

theorem recursiveDFSLoop_cons_skip (fuel : Nat) (nb : Node) (ns : List Node) (s : RecState)
    (h : nb ∈ s.visited) :
    recursiveDFSLoop fuel (nb :: ns) s = recursiveDFSLoop fuel ns s := by
  unfold recursiveDFSLoop
  rw [List.foldlM_cons]
  simp [h]

theorem recursiveDFSLoop_cons_call (fuel : Nat) (nb : Node) (ns : List Node) (s : RecState)
    (h : nb ∉ s.visited) :
    recursiveDFSLoop fuel (nb :: ns) s =
      (recursiveDFS fuel nb s).bind (recursiveDFSLoop fuel ns) := by
  unfold recursiveDFSLoop
  rw [List.foldlM_cons]
  simp only [h, if_false]
  rfl

/-- A call of `recursiveDFS`, and its neighbour loop, only add to `visited`. -/
theorem recursiveDFS_visited_mono :
    ∀ (fuel : Nat),
      (∀ (node : Node) (s r : RecState), recursiveDFS fuel node s = some r →
        ∀ x, x ∈ s.visited.insert node → x ∈ r.visited) ∧
      (∀ (ns : List Node) (s r : RecState), recursiveDFSLoop fuel ns s = some r →
        ∀ x, x ∈ s.visited → x ∈ r.visited) := by
  intro fuel
  induction fuel with
  | zero =>
    have hloop : ∀ (ns : List Node) (s r : RecState), recursiveDFSLoop 0 ns s = some r →
        ∀ x, x ∈ s.visited → x ∈ r.visited := by
      intro ns
      induction ns with
      | nil =>
        intro s r h x hx
        rw [recursiveDFSLoop_nil] at h
        cases Option.some.inj h
        exact hx
      | cons nb ns ih =>
        intro s r h x hx
        by_cases hv : nb ∈ s.visited
        · rw [recursiveDFSLoop_cons_skip _ _ _ _ hv] at h
          exact ih s r h x hx
        · rw [recursiveDFSLoop_cons_call _ _ _ _ hv] at h
          simp [recursiveDFS] at h
    refine ⟨?_, hloop⟩
    intro node s r h
    simp [recursiveDFS] at h
  | succ fuel ihf =>
    have hcall : ∀ (node : Node) (s r : RecState), recursiveDFS (fuel + 1) node s = some r →
        ∀ x, x ∈ s.visited.insert node → x ∈ r.visited := by
      intro node s r h x hx
      rw [recursiveDFS_succ] at h
      exact ihf.2 _ _ _ h x hx
    refine ⟨hcall, ?_⟩
    intro ns
    induction ns with
    | nil =>
      intro s r h x hx
      rw [recursiveDFSLoop_nil] at h
      cases Option.some.inj h
      exact hx
    | cons nb ns ih =>
      intro s r h x hx
      by_cases hv : nb ∈ s.visited
      · rw [recursiveDFSLoop_cons_skip _ _ _ _ hv] at h
        exact ih s r h x hx
      · rw [recursiveDFSLoop_cons_call _ _ _ _ hv] at h
        obtain ⟨s1, h1, h2⟩ := Option.bind_eq_some.1 h
        exact ih s1 r h2 x (hcall nb s s1 h1 x (List.mem_insert_iff.2 (Or.inr hx)))

theorem unvisitedCount_anti (g0 : Graph) {V W : List Node} (h : ∀ x, x ∈ V → x ∈ W) :
    unvisitedCount g0 W ≤ unvisitedCount g0 V := by
  unfold unvisitedCount
  apply Finset.card_le_card
  intro x hx
  rw [Finset.mem_sdiff] at hx ⊢
  refine ⟨hx.1, fun hv => hx.2 ?_⟩
  exact List.mem_toFinset.2 (h x (List.mem_toFinset.1 hv))

theorem unvisitedCount_insert_lt (g0 : Graph) {V : List Node} {x : Node}
    (hx : x ∈ targets g0) (hv : x ∉ V) :
    unvisitedCount g0 (V.insert x) < unvisitedCount g0 V := by
  unfold unvisitedCount
  apply Finset.card_lt_card
  rw [Finset.ssubset_iff_of_subset]
  · refine ⟨x, ?_, ?_⟩
    · simp [hx, hv]
    · simp
  · intro y hy
    rw [Finset.mem_sdiff] at hy ⊢
    refine ⟨hy.1, fun h => hy.2 ?_⟩
    rw [List.mem_toFinset] at h ⊢
    exact List.mem_insert_iff.2 (Or.inr h)

/-- Termination of `recursiveDFS`: a depth bound above the number of
unvisited nodes suffices, and the store keeps its neighbour lists. -/
theorem recursiveDFS_terminates (g0 : Graph) :
    ∀ (fuel : Nat),
      (∀ (node : Node) (s : RecState), (∀ x, neighbors s.graph x = neighbors g0 x) →
        unvisitedCount g0 (s.visited.insert node) < fuel →
        ∃ r, recursiveDFS fuel node s = some r ∧
          ∀ x, neighbors r.graph x = neighbors g0 x) ∧
      (∀ (ns : List Node) (s : RecState), (∀ x ∈ ns, x ∈ targets g0) →
        (∀ x, neighbors s.graph x = neighbors g0 x) →
        unvisitedCount g0 s.visited ≤ fuel →
        ∃ r, recursiveDFSLoop fuel ns s = some r ∧
          ∀ x, neighbors r.graph x = neighbors g0 x) := by
  intro fuel
  induction fuel with
  | zero =>
    refine ⟨fun node s _ h => absurd h (Nat.not_lt_zero _), ?_⟩
    intro ns
    induction ns with
    | nil => exact fun s _ hs _ => ⟨s, rfl, hs⟩
    | cons nb ns ih =>
      intro s hns hs hc
      by_cases hv : nb ∈ s.visited
      · rw [recursiveDFSLoop_cons_skip _ _ _ _ hv]
        exact ih s (fun x hx => hns x (List.mem_cons_of_mem _ hx)) hs hc
      · have := unvisitedCount_insert_lt g0 (hns nb (List.mem_cons_self _ _)) hv
        omega
  | succ fuel ihf =>
    have hcall : ∀ (node : Node) (s : RecState), (∀ x, neighbors s.graph x = neighbors g0 x) →
        unvisitedCount g0 (s.visited.insert node) < fuel + 1 →
        ∃ r, recursiveDFS (fuel + 1) node s = some r ∧
          ∀ x, neighbors r.graph x = neighbors g0 x := by
      intro node s hs hc
      rw [recursiveDFS_succ]
      refine ihf.2 _ _ ?_ ?_ (Nat.lt_succ_iff.1 hc)
      · intro x hx
        rw [hs] at hx
        exact mem_targets_of_mem_neighbors hx
      · intro x
        show neighbors (graphIndex s.graph node).2 x = _
        rw [neighbors_graphIndex, hs]
    refine ⟨hcall, ?_⟩
    intro ns
    induction ns with
    | nil => exact fun s _ hs _ => ⟨s, rfl, hs⟩
    | cons nb ns ih =>
      intro s hns hs hc
      have hns2 : ∀ x ∈ ns, x ∈ targets g0 := fun x hx => hns x (List.mem_cons_of_mem _ hx)
      by_cases hv : nb ∈ s.visited
      · rw [recursiveDFSLoop_cons_skip _ _ _ _ hv]
        exact ih s hns2 hs hc
      · rw [recursiveDFSLoop_cons_call _ _ _ _ hv]
        have hlt := unvisitedCount_insert_lt g0 (hns nb (List.mem_cons_self _ _)) hv
        obtain ⟨s1, h1, hs1⟩ := hcall nb s hs (by omega)
        rw [h1, Option.some_bind]
        refine ih s1 hns2 hs1 ?_
        have hmono := (recursiveDFS_visited_mono (fuel + 1)).1 nb s s1 h1
        have := unvisitedCount_anti g0 (V := s.visited) (W := s1.visited)
          (fun x hx => hmono x (List.mem_insert_iff.2 (Or.inr hx)))
        omega

/-! ## The loop of `iterativeDFS` simulates `recursiveDFS` -/

/-- The neighbour loop of `recursiveDFS` is matched by the loop of
`iterativeDFS` working off the same neighbours from the top of its stack, also
when the neighbours in `W`, all visited already, were never pushed. -/
theorem recursiveDFSLoop_simulation (fuel : Nat)
    (hcall : ∀ (node : Node) (s r : RecState) (rest : List Node),
      recursiveDFS fuel node s = some r → node ∉ s.visited →
      ∃ n, ∀ m, whileLoop dfsCond dfsBody (n + m)
          { graph := s.graph, stack := node :: rest, visited := s.visited, out := s.out }
        = whileLoop dfsCond dfsBody m
          { graph := r.graph, stack := rest, visited := r.visited, out := r.out }) :
    ∀ (ns : List Node) (s r : RecState) (rest W : List Node),
      recursiveDFSLoop fuel ns s = some r → (∀ x ∈ W, x ∈ s.visited) →
      ∃ n, ∀ m, whileLoop dfsCond dfsBody (n + m)
          { graph := s.graph, stack := ns.filter (fun x => decide (x ∉ W)) ++ rest,
            visited := s.visited, out := s.out }
        = whileLoop dfsCond dfsBody m
          { graph := r.graph, stack := rest, visited := r.visited, out := r.out } := by
  intro ns
  induction ns with
  | nil =>
    intro s r rest W h _
    rw [recursiveDFSLoop_nil] at h
    cases Option.some.inj h
    exact ⟨0, fun m => by simp⟩
  | cons nb ns ih =>
    intro s r rest W h hW
    by_cases hv : nb ∈ s.visited
    · rw [recursiveDFSLoop_cons_skip _ _ _ _ hv] at h
      obtain ⟨n, hn⟩ := ih s r rest W h hW
      by_cases hw : nb ∈ W
      · refine ⟨n, fun m => ?_⟩
        rw [← hn m]
        simp [List.filter_cons, hw]
      · refine ⟨n + 1, fun m => ?_⟩
        have hf : (nb :: ns).filter (fun x => decide (x ∉ W)) ++ rest
            = nb :: (ns.filter (fun x => decide (x ∉ W)) ++ rest) := by
          simp [List.filter_cons, hw]
        rw [hf, show n + 1 + m = (n + m) + 1 by omega,
          whileLoop_step _ _ _ _ ((dfsCond_iff _).2 ⟨nb, _, rfl⟩),
          dfsBody_skip _ nb _ rfl hv]
        exact hn m
    · have hw : nb ∉ W := fun hw => hv (hW nb hw)
      rw [recursiveDFSLoop_cons_call _ _ _ _ hv] at h
      obtain ⟨s1, h1, h2⟩ := Option.bind_eq_some.1 h
      have hmono := (recursiveDFS_visited_mono fuel).1 nb s s1 h1
      obtain ⟨n1, hn1⟩ := hcall nb s s1 (ns.filter (fun x => decide (x ∉ W)) ++ rest) h1 hv
      obtain ⟨n2, hn2⟩ := ih s1 r rest W h2
        (fun x hx => hmono x (List.mem_insert_iff.2 (Or.inr (hW x hx))))
      refine ⟨n1 + n2, fun m => ?_⟩
      have hf : (nb :: ns).filter (fun x => decide (x ∉ W)) ++ rest
          = nb :: (ns.filter (fun x => decide (x ∉ W)) ++ rest) := by
        simp [List.filter_cons, hw]
      rw [hf, show n1 + n2 + m = n1 + (n2 + m) by omega, hn1, hn2]

/-- A completed call `recursiveDFS(node, visited)` on an unvisited node is
matched by the loop of `iterativeDFS` from the moment `node` is on top of
the stack until the stack is back to what was below it. -/
theorem recursiveDFS_simulation :
    ∀ (fuel : Nat) (node : Node) (s r : RecState) (rest : List Node),
      recursiveDFS fuel node s = some r → node ∉ s.visited →
      ∃ n, ∀ m, whileLoop dfsCond dfsBody (n + m)
          { graph := s.graph, stack := node :: rest, visited := s.visited, out := s.out }
        = whileLoop dfsCond dfsBody m
          { graph := r.graph, stack := rest, visited := r.visited, out := r.out } := by
  intro fuel
  induction fuel with
  | zero =>
    intro node s r rest h
    simp [recursiveDFS] at h
  | succ fuel ih =>
    intro node s r rest h hv
    rw [recursiveDFS_succ] at h
    obtain ⟨n, hn⟩ := recursiveDFSLoop_simulation fuel ih _ _ r rest
      (s.visited.insert node) h (fun x hx => hx)
    refine ⟨n + 1, fun m => ?_⟩
    rw [show n + 1 + m = (n + m) + 1 by omega,
      whileLoop_step _ _ _ _ ((dfsCond_iff _).2 ⟨node, _, rfl⟩),
      dfsBody_visit _ node rest rfl hv]
    exact hn m

/-! ## Depth-first search: the invariant -/

theorem dfsInv_init (g0 : Graph) (start : Node) : DFSInv g0 start (dfsInit g0 start) where
  store := storeAfter_init g0
  nodup := by simp [dfsInit]
  visited := by simp [dfsInit]
  reachOut := by simp [dfsInit]
  reachStack := by
    intro x hx
    have : x = start := by simpa [dfsInit] using hx
    subst this
    exact Relation.ReflTransGen.refl
  closed := by simp [dfsInit]
  start := by simp [dfsInit]

theorem dfsInv_step {g0 : Graph} {start : Node} {s : DFSState}
    (h : DFSInv g0 start s) (hc : dfsCond s = true) : DFSInv g0 start (dfsBody s) := by
  obtain ⟨node, rest, hq⟩ := (dfsCond_iff s).1 hc
  by_cases hv : node ∈ s.visited
  · rw [dfsBody_skip s node rest hq hv]
    have hno : node ∈ s.out := (h.visited node).1 hv
    constructor
    · exact h.store
    · exact h.nodup
    · exact h.visited
    · exact h.reachOut
    · intro x hx
      exact h.reachStack x (by rw [hq]; exact List.mem_cons_of_mem _ hx)
    · intro u hu nb hnb
      rcases h.closed u hu nb hnb with hn | hn
      · exact Or.inl hn
      · rw [hq] at hn
        rcases List.mem_cons.1 hn with rfl | hn
        · exact Or.inl hno
        · exact Or.inr hn
    · rcases h.start with hn | hn
      · exact Or.inl hn
      · rw [hq] at hn
        rcases List.mem_cons.1 hn with rfl | hn
        · exact Or.inl hno
        · exact Or.inr hn
  · rw [dfsBody_visit s node rest hq hv, storeAfter_neighbors_eq h.store]
    have hno : node ∉ s.out := fun hn => hv ((h.visited node).2 hn)
    have hreach : Reachable g0 start node := h.reachStack node (by rw [hq]; simp)
    constructor
    · exact storeAfter_index h.store node
    · show (s.out ++ [node]).Nodup
      rw [List.nodup_append]
      refine ⟨h.nodup, by simp, ?_⟩
      intro x hx hx2
      have : x = node := by simpa using hx2
      exact hno (this ▸ hx)
    · intro x
      show x ∈ s.visited.insert node ↔ x ∈ s.out ++ [node]
      rw [List.mem_insert_iff, h.visited x]
      simp only [List.mem_append, List.mem_singleton]
      tauto
    · intro x hx
      rcases List.mem_append.1 hx with hx | hx
      · exact h.reachOut x hx
      · have : x = node := by simpa using hx
        rw [this]; exact hreach
    · intro x hx
      rcases List.mem_append.1 hx with hx | hx
      · exact Relation.ReflTransGen.tail hreach (List.mem_filter.1 hx).1
      · exact h.reachStack x (by rw [hq]; exact List.mem_cons_of_mem _ hx)
    · intro u hu nb hnb
      show nb ∈ s.out ++ [node] ∨
        nb ∈ (neighbors g0 node).filter (fun x => decide (x ∉ s.visited.insert node)) ++ rest
      rcases List.mem_append.1 hu with hu | hu
      · rcases h.closed u hu nb hnb with hn | hn
        · exact Or.inl (List.mem_append_left _ hn)
        · rw [hq] at hn
          rcases List.mem_cons.1 hn with rfl | hn
          · exact Or.inl (by simp)
          · exact Or.inr (List.mem_append_right _ hn)
      · have hun : u = node := by simpa using hu
        subst hun
        by_cases hnv : nb ∈ s.visited.insert u
        · left
          rcases List.mem_insert_iff.1 hnv with rfl | hnv
          · simp
          · exact List.mem_append_left _ ((h.visited nb).1 hnv)
        · right
          exact List.mem_append_left _ (List.mem_filter.2 ⟨hnb, by simpa using hnv⟩)
    · show start ∈ s.out ++ [node] ∨ start ∈ _ ++ rest
      rcases h.start with hn | hn
      · exact Or.inl (List.mem_append_left _ hn)
      · rw [hq] at hn
        rcases List.mem_cons.1 hn with rfl | hn
        · exact Or.inl (by simp)
        · exact Or.inr (List.mem_append_right _ hn)

theorem dfsInv_mem_out_iff {g0 : Graph} {start : Node} {r : DFSState}
    (h : DFSInv g0 start r) (hq : r.stack = []) (v : Node) :
    v ∈ r.out ↔ Reachable g0 start v := by
  constructor
  · exact h.reachOut v
  · intro hv
    induction hv with
    | refl =>
      rcases h.start with hs | hs
      · exact hs
      · rw [hq] at hs; simp at hs
    | tail _ hnb ih =>
      rcases h.closed _ ih _ hnb with hs | hs
      · exact hs
      · rw [hq] at hs; simp at hs

/-- A completed call of `recursiveDFS` completes with the same result under
any larger depth bound. -/
theorem recursiveDFS_mono :
    ∀ (fuel : Nat),
      (∀ (node : Node) (s r : RecState), recursiveDFS fuel node s = some r →
        recursiveDFS (fuel + 1) node s = some r) ∧
      (∀ (ns : List Node) (s r : RecState), recursiveDFSLoop fuel ns s = some r →
        recursiveDFSLoop (fuel + 1) ns s = some r) := by
  have hloop : ∀ (fuel : Nat),
      (∀ (node : Node) (s r : RecState), recursiveDFS fuel node s = some r →
        recursiveDFS (fuel + 1) node s = some r) →
      ∀ (ns : List Node) (s r : RecState), recursiveDFSLoop fuel ns s = some r →
        recursiveDFSLoop (fuel + 1) ns s = some r := by
    intro fuel hcall ns
    induction ns with
    | nil => exact fun s r h => h
    | cons nb ns ih =>
      intro s r h
      by_cases hv : nb ∈ s.visited
      · rw [recursiveDFSLoop_cons_skip _ _ _ _ hv] at h ⊢
        exact ih s r h
      · rw [recursiveDFSLoop_cons_call _ _ _ _ hv] at h ⊢
        obtain ⟨s1, h1, h2⟩ := Option.bind_eq_some.1 h
        rw [hcall nb s s1 h1, Option.some_bind]
        exact ih s1 r h2
  intro fuel
  induction fuel with
  | zero =>
    have hcall : ∀ (node : Node) (s r : RecState), recursiveDFS 0 node s = some r →
        recursiveDFS (0 + 1) node s = some r := by
      intro node s r h
      simp [recursiveDFS] at h
    exact ⟨hcall, hloop 0 hcall⟩
  | succ fuel ih =>
    have hcall : ∀ (node : Node) (s r : RecState), recursiveDFS (fuel + 1) node s = some r →
        recursiveDFS (fuel + 1 + 1) node s = some r := by
      intro node s r h
      rw [recursiveDFS_succ] at h ⊢
      exact ih.2 _ _ _ h
    exact ⟨hcall, hloop (fuel + 1) hcall⟩

theorem recursiveDFS_mono_le (node : Node) (s r : RecState) :
    ∀ (n m : Nat), n ≤ m → recursiveDFS n node s = some r →
      recursiveDFS m node s = some r := by
  intro n m hnm h
  induction hnm with
  | refl => exact h
  | step _ ih => exact (recursiveDFS_mono _).1 node s r ih

/-- The result of `iterativeBFS` does not depend on the bound. -/
theorem iterativeBFS_det (g : Graph) (start : Node) (n m : Nat) (a b : List Node × Graph)
    (ha : iterativeBFS n g start = some a) (hb : iterativeBFS m g start = some b) : a = b := by
  unfold iterativeBFS at ha hb
  obtain ⟨ra, hra, rfl⟩ := Option.map_eq_some'.1 ha
  obtain ⟨rb, hrb, rfl⟩ := Option.map_eq_some'.1 hb
  rw [whileLoop_det _ _ _ _ _ _ _ hra hrb]

/-- The result of `iterativeDFS` does not depend on the bound. -/
theorem iterativeDFS_det (g : Graph) (start : Node) (n m : Nat) (a b : List Node × Graph)
    (ha : iterativeDFS n g start = some a) (hb : iterativeDFS m g start = some b) : a = b := by
  unfold iterativeDFS at ha hb
  obtain ⟨ra, hra, rfl⟩ := Option.map_eq_some'.1 ha
  obtain ⟨rb, hrb, rfl⟩ := Option.map_eq_some'.1 hb
  rw [whileLoop_det _ _ _ _ _ _ _ hra hrb]

/-- The result of `startRecursiveDFS` does not depend on the bound. -/
theorem startRecursiveDFS_det (g : Graph) (start : Node) (n m : Nat)
    (a b : List Node × Graph)
    (ha : startRecursiveDFS n g start = some a) (hb : startRecursiveDFS m g start = some b) :
    a = b := by
  unfold startRecursiveDFS at ha hb
  obtain ⟨ra, hra, rfl⟩ := Option.map_eq_some'.1 ha
  obtain ⟨rb, hrb, rfl⟩ := Option.map_eq_some'.1 hb
  have h1 := recursiveDFS_mono_le _ _ _ n (max n m) (le_max_left _ _) hra
  have h2 := recursiveDFS_mono_le _ _ _ m (max n m) (le_max_right _ _) hrb
  rw [h1] at h2
  cases Option.some.inj h2
  rfl

/-- Both depth-first programs complete, with the same emitted sequence and
the same store, and the final state of the loop satisfies the invariant. -/
theorem dfs_run (g0 : Graph) (start : Node) :
    ∃ (fuelR n : Nat) (r : RecState),
      recursiveDFS fuelR start { graph := g0, visited := [], out := [] } = some r ∧
      whileLoop dfsCond dfsBody n (dfsInit g0 start)
        = some { graph := r.graph, stack := [], visited := r.visited, out := r.out } ∧
      DFSInv g0 start { graph := r.graph, stack := [], visited := r.visited, out := r.out } := by
  obtain ⟨r, hr, _⟩ := (recursiveDFS_terminates g0
    (unvisitedCount g0 (([] : List Node).insert start) + 1)).1 start
    { graph := g0, visited := [], out := [] } (fun _ => rfl) (Nat.lt_succ_self _)
  obtain ⟨n, hn⟩ := recursiveDFS_simulation _ start _ r [] hr (by simp)
  have hloop : whileLoop dfsCond dfsBody n (dfsInit g0 start)
      = some { graph := r.graph, stack := [], visited := r.visited, out := r.out } := by
    have h0 := whileLoop_exit dfsCond dfsBody 0
      { graph := r.graph, stack := [], visited := r.visited, out := r.out }
      ((dfsCond_false_iff _).2 rfl)
    have := hn 0
    rw [h0] at this
    exact this
  refine ⟨_, n, r, hr, hloop, ?_⟩
  exact (whileLoop_inv dfsCond dfsBody (DFSInv g0 start)
    (fun s hs hc => dfsInv_step hs hc) _ _ _ (dfsInv_init g0 start) hloop).1

theorem iterativeDFS_of_loop {g0 : Graph} {start : Node} {n : Nat} {r : DFSState}
    (h : whileLoop dfsCond dfsBody n (dfsInit g0 start) = some r) :
    iterativeDFS n g0 start = some (r.out, r.graph) := by
  simp [iterativeDFS, h]

theorem startRecursiveDFS_of_call {g0 : Graph} {start : Node} {n : Nat} {r : RecState}
    (h : recursiveDFS n start { graph := g0, visited := [], out := [] } = some r) :
    startRecursiveDFS n g0 start = some (r.out, r.graph) := by
  simp [startRecursiveDFS, h]

/-- C3. The sequence emitted by `iterativeDFS(start)` contains no node twice,
and a node occurs in it if and only if it is reachable from `start` by
following stored neighbour lists. -/
theorem iterativeDFS_emits_reachable (g : Graph) (start : Node) :
    ∃ (fuel : Nat) (out : List Node) (g2 : Graph),
      iterativeDFS fuel g start = some (out, g2) ∧
      out.Nodup ∧ ∀ v, v ∈ out ↔ Reachable g start v := by
  obtain ⟨_, n, r, _, hloop, hinv⟩ := dfs_run g start
  exact ⟨n, r.out, r.graph, iterativeDFS_of_loop hloop, hinv.nodup, dfsInv_mem_out_iff hinv rfl⟩

/-- C4. `iterativeDFS(start)` emits exactly the same sequence as
`startRecursiveDFS(start)` (and leaves the same store): both complete with a
common result, and whenever both complete their results are equal. -/
theorem iterativeDFS_refines_startRecursiveDFS (g : Graph) (start : Node) :
    (∃ (fuelI fuelR : Nat) (out : List Node) (g2 : Graph),
      iterativeDFS fuelI g start = some (out, g2) ∧
      startRecursiveDFS fuelR g start = some (out, g2)) ∧
    ∀ (fuelI fuelR : Nat) (a b : List Node × Graph),
      iterativeDFS fuelI g start = some a → startRecursiveDFS fuelR g start = some b →
      a = b := by
  obtain ⟨fuelR, n, r, hr, hloop, _⟩ := dfs_run g start
  have hi := iterativeDFS_of_loop hloop
  have hrec := startRecursiveDFS_of_call hr
  refine ⟨⟨n, fuelR, r.out, r.graph, hi, hrec⟩, ?_⟩
  intro fuelI fuelR2 a b ha hb
  rw [iterativeDFS_det g start _ _ _ _ ha hi, startRecursiveDFS_det g start _ _ _ _ hb hrec]

/-- C6. On the graph literal, `iterativeBFS('A')` and `startRecursiveBFS('A')`
both emit `A B C D E F`, in which each of the six keys occurs exactly once. -/
theorem bfs_on_literal :
    iterativeBFS 6 graph 'A' = some (['A', 'B', 'C', 'D', 'E', 'F'], graph) ∧
    startRecursiveBFS 6 graph 'A' = some (['A', 'B', 'C', 'D', 'E', 'F'], graph) ∧
    graph.map Prod.fst = ['A', 'B', 'C', 'D', 'E', 'F'] ∧
    ∀ k ∈ graph.map Prod.fst, ['A', 'B', 'C', 'D', 'E', 'F'].count k = 1 := by
  decide

/-- C7. On the graph literal, `iterativeDFS('A')` and `startRecursiveDFS('A')`
both emit `A B D E F C`, in which each of the six keys occurs exactly once. -/
theorem dfs_on_literal :
    iterativeDFS 7 graph 'A' = some (['A', 'B', 'D', 'E', 'F', 'C'], graph) ∧
    startRecursiveDFS 5 graph 'A' = some (['A', 'B', 'D', 'E', 'F', 'C'], graph) ∧
    graph.map Prod.fst = ['A', 'B', 'C', 'D', 'E', 'F'] ∧
    ∀ k ∈ graph.map Prod.fst, ['A', 'B', 'D', 'E', 'F', 'C'].count k = 1 := by
  decide

/-- C8. From a start node that is not a key of the graph, or is a key with an
empty neighbour list, each of the four traversals completes (one loop
iteration, one call) and emits the one-element sequence `start`. -/
theorem traversals_from_isolated_start (g : Graph) (start : Node)
    (h : neighbors g start = []) :
    iterativeBFS 1 g start = some ([start], (graphIndex g start).2) ∧
    iterativeDFS 1 g start = some ([start], (graphIndex g start).2) ∧
    startRecursiveBFS 1 g start = some ([start], (graphIndex g start).2) ∧
    startRecursiveDFS 1 g start = some ([start], (graphIndex g start).2) := by
  have hbfs : iterativeBFS 1 g start = some ([start], (graphIndex g start).2) := by
    have hb : bfsBody (bfsInit g start) =
        { graph := (graphIndex g start).2, queue := [], visited := [start],
          out := [start] } := by
      rw [bfsBody_cons _ start [] rfl]
      simp [bfsInit, h]
    unfold iterativeBFS
    rw [whileLoop_step _ _ _ _ ((bfsCond_iff _).2 ⟨start, [], rfl⟩), hb,
      whileLoop_exit _ _ _ _ ((bfsCond_false_iff _).2 rfl)]
    rfl
  have hdfs : iterativeDFS 1 g start = some ([start], (graphIndex g start).2) := by
    have hb : dfsBody (dfsInit g start) =
        { graph := (graphIndex g start).2, stack := [], visited := [start],
          out := [start] } := by
      rw [dfsBody_visit _ start [] rfl (by simp [dfsInit])]
      simp [dfsInit, h]
    unfold iterativeDFS
    rw [whileLoop_step _ _ _ _ ((dfsCond_iff _).2 ⟨start, [], rfl⟩), hb,
      whileLoop_exit _ _ _ _ ((dfsCond_false_iff _).2 rfl)]
    rfl
  refine ⟨hbfs, hdfs, ?_, ?_⟩
  · rw [startRecursiveBFS_eq]; exact hbfs
  · unfold startRecursiveDFS
    rw [recursiveDFS_succ]
    simp only [h, recursiveDFSLoop_nil]
    rfl

/-- C8, at a concrete input: `Z` is not a key of the graph literal. -/
theorem traversals_from_isolated_start_witness :
    neighbors graph 'Z' = [] ∧
    iterativeBFS 1 graph 'Z' = some (['Z'], (graphIndex graph 'Z').2) ∧
    iterativeDFS 1 graph 'Z' = some (['Z'], (graphIndex graph 'Z').2) ∧
    startRecursiveBFS 1 graph 'Z' = some (['Z'], (graphIndex graph 'Z').2) ∧
    startRecursiveDFS 1 graph 'Z' = some (['Z'], (graphIndex graph 'Z').2) :=
  ⟨by decide, traversals_from_isolated_start graph 'Z' (by decide)⟩

/-- C10, as stated, fails: started from `Z`, which is not a key of the graph
literal, each of the four traversals leaves a store in which `Z` is a key. -/
theorem store_gains_key_counterexample :
    graph.lookup 'Z' = none ∧
    (graph ++ [('Z', [])]).lookup 'Z' = some [] ∧
    iterativeBFS 1 graph 'Z' = some (['Z'], graph ++ [('Z', [])]) ∧
    iterativeDFS 1 graph 'Z' = some (['Z'], graph ++ [('Z', [])]) ∧
    startRecursiveBFS 1 graph 'Z' = some (['Z'], graph ++ [('Z', [])]) ∧
    startRecursiveDFS 1 graph 'Z' = some (['Z'], graph ++ [('Z', [])]) := by
  decide

/-- C10, amended. After any of the four traversals every key the store had
keeps its neighbour list, and the keys added are exactly the emitted nodes
that were not keys, each with an empty neighbour list (`StoreAfter`). -/
theorem traversals_store_after (g : Graph) (start : Node) :
    (∃ (fuel : Nat) (out : List Node) (g2 : Graph),
      iterativeBFS fuel g start = some (out, g2) ∧ StoreAfter g out g2) ∧
    (∃ (fuel : Nat) (out : List Node) (g2 : Graph),
      iterativeDFS fuel g start = some (out, g2) ∧ StoreAfter g out g2) ∧
    (∃ (fuel : Nat) (out : List Node) (g2 : Graph),
      startRecursiveBFS fuel g start = some (out, g2) ∧ StoreAfter g out g2) ∧
    (∃ (fuel : Nat) (out : List Node) (g2 : Graph),
      startRecursiveDFS fuel g start = some (out, g2) ∧ StoreAfter g out g2) := by
  obtain ⟨rb, lev, hrb, hinvb, _, _⟩ := bfs_run g start
  obtain ⟨fuelR, n, r, hr, hloop, hinv⟩ := dfs_run g start
  refine ⟨⟨_, rb.out, rb.graph, iterativeBFS_of_loop hrb, hinvb.store⟩,
    ⟨n, r.out, r.graph, iterativeDFS_of_loop hloop, hinv.store⟩,
    ⟨rb.out.length, rb.out, rb.graph, ?_, hinvb.store⟩,
    ⟨fuelR, r.out, r.graph, startRecursiveDFS_of_call hr, hinv.store⟩⟩
  rw [startRecursiveBFS_eq]
  exact iterativeBFS_of_loop hrb

/-! ## Repeated traversals -/

/-- The sequence emitted by the BFS loop depends on the store only through
the neighbour lists read from it. -/
theorem bfs_out_congr :
    ∀ (n : Nat) (s t : BFSState), s.queue = t.queue → s.visited = t.visited →
      s.out = t.out → (∀ x, neighbors s.graph x = neighbors t.graph x) →
      (whileLoop bfsCond bfsBody n s).map (fun r => r.out)
        = (whileLoop bfsCond bfsBody n t).map (fun r => r.out) := by
  intro n
  induction n with
  | zero =>
    intro s t hq _ ho _
    have hc : bfsCond t = bfsCond s := by simp [bfsCond, hq]
    cases h : bfsCond s <;> simp [whileLoop, hc, h, ho]
  | succ n ih =>
    intro s t hq hv ho hg
    cases h : bfsCond s with
    | false =>
      have hc : bfsCond t = false := by rw [← h]; simp [bfsCond, hq]
      rw [whileLoop_exit _ _ _ _ h, whileLoop_exit _ _ _ _ hc]
      simp [ho]
    | true =>
      obtain ⟨node, rest, hqs⟩ := (bfsCond_iff s).1 h
      have hqt : t.queue = node :: rest := by rw [← hq, hqs]
      have hc : bfsCond t = true := (bfsCond_iff t).2 ⟨node, rest, hqt⟩
      rw [whileLoop_step _ _ _ _ h, whileLoop_step _ _ _ _ hc]
      apply ih
      · rw [bfsBody_cons s node rest hqs, bfsBody_cons t node rest hqt, hg, hv]
      · rw [bfsBody_cons s node rest hqs, bfsBody_cons t node rest hqt, hg, hv]
      · rw [bfsBody_cons s node rest hqs, bfsBody_cons t node rest hqt, ho]
      · intro x
        rw [bfsBody_cons s node rest hqs, bfsBody_cons t node rest hqt]
        show neighbors (graphIndex s.graph node).2 x = neighbors (graphIndex t.graph node).2 x
        rw [neighbors_graphIndex, neighbors_graphIndex, hg]

/-- The sequence emitted by the loop of `iterativeDFS` depends on the store
only through the neighbour lists read from it. -/
theorem dfs_out_congr :
    ∀ (n : Nat) (s t : DFSState), s.stack = t.stack → s.visited = t.visited →
      s.out = t.out → (∀ x, neighbors s.graph x = neighbors t.graph x) →
      (whileLoop dfsCond dfsBody n s).map (fun r => r.out)
        = (whileLoop dfsCond dfsBody n t).map (fun r => r.out) := by
  intro n
  induction n with
  | zero =>
    intro s t hq _ ho _
    have hc : dfsCond t = dfsCond s := by simp [dfsCond, hq]
    cases h : dfsCond s <;> simp [whileLoop, hc, h, ho]
  | succ n ih =>
    intro s t hq hv ho hg
    cases h : dfsCond s with
    | false =>
      have hc : dfsCond t = false := by rw [← h]; simp [dfsCond, hq]
      rw [whileLoop_exit _ _ _ _ h, whileLoop_exit _ _ _ _ hc]
      simp [ho]
    | true =>
      obtain ⟨node, rest, hqs⟩ := (dfsCond_iff s).1 h
      have hqt : t.stack = node :: rest := by rw [← hq, hqs]
      have hc : dfsCond t = true := (dfsCond_iff t).2 ⟨node, rest, hqt⟩
      rw [whileLoop_step _ _ _ _ h, whileLoop_step _ _ _ _ hc]
      by_cases hmem : node ∈ s.visited
      · have hmt : node ∈ t.visited := hv ▸ hmem
        rw [dfsBody_skip s node rest hqs hmem, dfsBody_skip t node rest hqt hmt]
        exact ih _ _ rfl hv ho hg
      · have hmt : node ∉ t.visited := hv ▸ hmem
        rw [dfsBody_visit s node rest hqs hmem, dfsBody_visit t node rest hqt hmt]
        apply ih
        · show _ ++ rest = _ ++ rest
          rw [hg, hv]
        · show s.visited.insert node = t.visited.insert node
          rw [hv]
        · show s.out ++ [node] = t.out ++ [node]
          rw [ho]
        · intro x
          show neighbors (graphIndex s.graph node).2 x = neighbors (graphIndex t.graph node).2 x
          rw [neighbors_graphIndex, neighbors_graphIndex, hg]

/-- Two completed runs of `iterativeBFS` on stores with the same neighbour
lists emit the same sequence. -/
theorem iterativeBFS_out_congr {g h : Graph} (hg : ∀ x, neighbors g x = neighbors h x)
    {start : Node} {n m : Nat} {a b : List Node × Graph}
    (ha : iterativeBFS n g start = some a) (hb : iterativeBFS m h start = some b) :
    a.1 = b.1 := by
  unfold iterativeBFS at ha hb
  obtain ⟨ra, hra, rfl⟩ := Option.map_eq_some'.1 ha
  obtain ⟨rb, hrb, rfl⟩ := Option.map_eq_some'.1 hb
  have h1 := whileLoop_mono _ _ n (max n m) _ _ hra (le_max_left _ _)
  have h2 := whileLoop_mono _ _ m (max n m) _ _ hrb (le_max_right _ _)
  have := bfs_out_congr (max n m) (bfsInit g start) (bfsInit h start) rfl rfl rfl hg
  rw [h1, h2] at this
  simpa using this

/-- Two completed runs of `iterativeDFS` on stores with the same neighbour
lists emit the same sequence. -/
theorem iterativeDFS_out_congr {g h : Graph} (hg : ∀ x, neighbors g x = neighbors h x)
    {start : Node} {n m : Nat} {a b : List Node × Graph}
    (ha : iterativeDFS n g start = some a) (hb : iterativeDFS m h start = some b) :
    a.1 = b.1 := by
  unfold iterativeDFS at ha hb
  obtain ⟨ra, hra, rfl⟩ := Option.map_eq_some'.1 ha
  obtain ⟨rb, hrb, rfl⟩ := Option.map_eq_some'.1 hb
  have h1 := whileLoop_mono _ _ n (max n m) _ _ hra (le_max_left _ _)
  have h2 := whileLoop_mono _ _ m (max n m) _ _ hrb (le_max_right _ _)
  have := dfs_out_congr (max n m) (dfsInit g start) (dfsInit h start) rfl rfl rfl hg
  rw [h1, h2] at this
  simpa using this

/-- C11. Calling the same traversal twice in sequence, the second call on the
store as the first call left it, emits the same sequence both times; this
holds for each of the four traversals. -/
theorem traversal_twice_same_output (g : Graph) (start : Node) :
    (∃ (f1 f2 : Nat) (out : List Node) (g1 g2 : Graph),
      iterativeBFS f1 g start = some (out, g1) ∧
      iterativeBFS f2 g1 start = some (out, g2)) ∧
    (∃ (f1 f2 : Nat) (out : List Node) (g1 g2 : Graph),
      iterativeDFS f1 g start = some (out, g1) ∧
      iterativeDFS f2 g1 start = some (out, g2)) ∧
    (∃ (f1 f2 : Nat) (out : List Node) (g1 g2 : Graph),
      startRecursiveBFS f1 g start = some (out, g1) ∧
      startRecursiveBFS f2 g1 start = some (out, g2)) ∧
    (∃ (f1 f2 : Nat) (out : List Node) (g1 g2 : Graph),
      startRecursiveDFS f1 g start = some (out, g1) ∧
      startRecursiveDFS f2 g1 start = some (out, g2)) := by
  obtain ⟨rb, _, hrb, hinvb, _, _⟩ := bfs_run g start
  obtain ⟨rb2, _, hrb2, _, _, _⟩ := bfs_run rb.graph start
  have hb1 := iterativeBFS_of_loop hrb
  have hb2 := iterativeBFS_of_loop hrb2
  have hbo : rb.out = rb2.out :=
    iterativeBFS_out_congr (fun x => (storeAfter_neighbors_eq hinvb.store x).symm) hb1 hb2
  obtain ⟨fr, n, r, hr, hloop, hinv⟩ := dfs_run g start
  obtain ⟨fr2, n2, r2, hr2, hloop2, _⟩ := dfs_run r.graph start
  have hd1 := iterativeDFS_of_loop hloop
  have hd2 := iterativeDFS_of_loop hloop2
  have hdo : r.out = r2.out :=
    iterativeDFS_out_congr (fun x => (storeAfter_neighbors_eq hinv.store x).symm) hd1 hd2
  rw [← hbo] at hb2
  have hd3 := startRecursiveDFS_of_call hr2
  rw [← hdo] at hd2 hd3
  refine ⟨⟨_, _, rb.out, rb.graph, rb2.graph, hb1, hb2⟩,
    ⟨n, n2, r.out, r.graph, r2.graph, hd1, hd2⟩,
    ⟨rb.out.length, rb.out.length, rb.out, rb.graph, rb2.graph, ?_, ?_⟩,
    ⟨fr, fr2, r.out, r.graph, r2.graph, startRecursiveDFS_of_call hr, hd3⟩⟩
  · rw [startRecursiveBFS_eq]; exact hb1
  · rw [startRecursiveBFS_eq]; exact hb2

/-! ## Output text, adjacency order, and the two depth-first orders -/

/-- C12, as stated, fails: the iterative BFS program writes a space after the
last node identifier too, so its output is not the label, `A B C D E F`
(single spaces between identifiers) and a newline. -/
theorem main_output_counterexample :
    mainIterativeBFS 6 = some "Iterative BFS starting from A: A B C D E F \n" ∧
    spaceSeparated ['A', 'B', 'C', 'D', 'E', 'F'] = "A B C D E F" ∧
    mainIterativeBFS 6 ≠
      some ("Iterative BFS starting from A: " ++
        spaceSeparated ['A', 'B', 'C', 'D', 'E', 'F'] ++ "\n") := by
  decide

/-- C12, amended. Each program writes its label, then every node identifier
of the visitation sequence followed by one space, then a newline. -/
theorem main_output_text :
    mainIterativeBFS 6 = some "Iterative BFS starting from A: A B C D E F \n" ∧
    mainIterativeDFS 7 = some "Iterative DFS starting from A: A B D E F C \n" ∧
    mainRecursiveBFS 6 = some "Recursive BFS starting from A: A B C D E F \n" ∧
    mainRecursiveDFS 5 = some "Recursive DFS starting from A: A B D E F C \n" ∧
    printed ['A', 'B', 'C', 'D', 'E', 'F']
      = spaceSeparated ['A', 'B', 'C', 'D', 'E', 'F'] ++ " " ∧
    printed ['A', 'B', 'D', 'E', 'F', 'C']
      = spaceSeparated ['A', 'B', 'D', 'E', 'F', 'C'] ++ " " := by
  decide

/-- C13. On the graph literal changed only by storing the neighbours of `A`
as `C, B`, `iterativeBFS('A')` emits `A C B F D E` and
`startRecursiveDFS('A')` emits `A C F E B D`; each differs from the sequence
emitted on the original graph and neither is in alphabetical order. -/
theorem output_tracks_adjacency_order :
    graphSwapped = ('A', ['C', 'B']) :: graph.tail ∧
    iterativeBFS 6 graphSwapped 'A' = some (['A', 'C', 'B', 'F', 'D', 'E'], graphSwapped) ∧
    startRecursiveDFS 6 graphSwapped 'A'
      = some (['A', 'C', 'F', 'E', 'B', 'D'], graphSwapped) ∧
    iterativeBFS 6 graph 'A' = some (['A', 'B', 'C', 'D', 'E', 'F'], graph) ∧
    startRecursiveDFS 5 graph 'A' = some (['A', 'B', 'D', 'E', 'F', 'C'], graph) ∧
    ['A', 'C', 'B', 'F', 'D', 'E'] ≠ ['A', 'B', 'C', 'D', 'E', 'F'] ∧
    ['A', 'C', 'F', 'E', 'B', 'D'] ≠ ['A', 'B', 'D', 'E', 'F', 'C'] ∧
    ¬ List.Sorted (fun a b : Node => a ≤ b) ['A', 'C', 'B', 'F', 'D', 'E'] ∧
    ¬ List.Sorted (fun a b : Node => a ≤ b) ['A', 'C', 'F', 'E', 'B', 'D'] := by
  decide

/-- C14, as stated, fails: there is no graph and start node on which
completed runs of `iterativeDFS` and `startRecursiveDFS` emit different
sequences. -/
theorem dfs_orders_differ_counterexample :
    ¬ ∃ (g : Graph) (start : Node) (fuelI fuelR : Nat) (a b : List Node × Graph),
      iterativeDFS fuelI g start = some a ∧ startRecursiveDFS fuelR g start = some b ∧
      a.1 ≠ b.1 := by
  rintro ⟨g, start, fuelI, fuelR, a, b, ha, hb, hne⟩
  obtain ⟨fr, n, r, hr, hloop, _⟩ := dfs_run g start
  have h1 := iterativeDFS_det g start _ _ _ _ ha (iterativeDFS_of_loop hloop)
  have h2 := startRecursiveDFS_det g start _ _ _ _ hb (startRecursiveDFS_of_call hr)
  exact hne (by rw [h1, h2])

/-- C14, amended. The equality of the two depth-first orders is a general
guarantee: on every graph and from every start node `iterativeDFS` and
`startRecursiveDFS` both complete and emit one and the same sequence. -/
theorem dfs_orders_agree_on_every_graph (g : Graph) (start : Node) :
    ∃ out : List Node,
      (∃ (fuelI : Nat) (gI : Graph), iterativeDFS fuelI g start = some (out, gI)) ∧
      (∃ (fuelR : Nat) (gR : Graph), startRecursiveDFS fuelR g start = some (out, gR)) := by
  obtain ⟨fr, n, r, hr, hloop, _⟩ := dfs_run g start
  exact ⟨r.out, ⟨n, r.graph, iterativeDFS_of_loop hloop⟩,
    ⟨fr, r.graph, startRecursiveDFS_of_call hr⟩⟩

/-! ## The push-time check of `iterativeDFS` -/

theorem specPush_foldl (rest ns : List Node) :
    ns.reverse.foldl (fun st nb => nb :: st) rest = ns ++ rest := by
  induction ns with
  | nil => rfl
  | cons nb ns ih => rw [List.reverse_cons, List.foldl_append, ih]; rfl

theorem specDfsBody_skip (g : Graph) (s : SpecDFSState) (node : Node) (rest : List Node)
    (hq : s.stack = node :: rest) (hv : node ∈ s.visited) :
    specDfsBody g s = { s with stack := rest } := by
  unfold specDfsBody
  rw [hq]
  simp [hv]

theorem specDfsBody_visit (g : Graph) (s : SpecDFSState) (node : Node) (rest : List Node)
    (hq : s.stack = node :: rest) (hv : node ∉ s.visited) :
    specDfsBody g s =
      { stack := neighbors g node ++ rest, visited := s.visited.insert node,
        out := s.out ++ [node] } := by
  rw [← specPush_foldl]
  unfold specDfsBody
  rw [hq]
  simp [hv]

/-- A call of `recursiveDFS`, and its neighbour loop, leave every neighbour
list of the store as it was. -/
theorem recursiveDFS_neighbors :
    ∀ (fuel : Nat),
      (∀ (node : Node) (s r : RecState), recursiveDFS fuel node s = some r →
        ∀ x, neighbors r.graph x = neighbors s.graph x) ∧
      (∀ (ns : List Node) (s r : RecState), recursiveDFSLoop fuel ns s = some r →
        ∀ x, neighbors r.graph x = neighbors s.graph x) := by
  have hloop : ∀ (fuel : Nat),
      (∀ (node : Node) (s r : RecState), recursiveDFS fuel node s = some r →
        ∀ x, neighbors r.graph x = neighbors s.graph x) →
      ∀ (ns : List Node) (s r : RecState), recursiveDFSLoop fuel ns s = some r →
        ∀ x, neighbors r.graph x = neighbors s.graph x := by
    intro fuel hcall ns
    induction ns with
    | nil =>
      intro s r h x
      rw [recursiveDFSLoop_nil] at h
      cases Option.some.inj h
      rfl
    | cons nb ns ih =>
      intro s r h x
      by_cases hv : nb ∈ s.visited
      · rw [recursiveDFSLoop_cons_skip _ _ _ _ hv] at h
        exact ih s r h x
      · rw [recursiveDFSLoop_cons_call _ _ _ _ hv] at h
        obtain ⟨s1, h1, h2⟩ := Option.bind_eq_some.1 h
        rw [ih s1 r h2 x, hcall nb s s1 h1 x]
  intro fuel
  induction fuel with
  | zero =>
    have hcall : ∀ (node : Node) (s r : RecState), recursiveDFS 0 node s = some r →
        ∀ x, neighbors r.graph x = neighbors s.graph x := by
      intro node s r h
      simp [recursiveDFS] at h
    exact ⟨hcall, hloop 0 hcall⟩
  | succ fuel ih =>
    have hcall : ∀ (node : Node) (s r : RecState), recursiveDFS (fuel + 1) node s = some r →
        ∀ x, neighbors r.graph x = neighbors s.graph x := by
      intro node s r h x
      rw [recursiveDFS_succ] at h
      rw [ih.2 _ _ _ h x]
      exact neighbors_graphIndex s.graph node x
    exact ⟨hcall, hloop (fuel + 1) hcall⟩

/-- The neighbour loop of `recursiveDFS` is matched by the specified loop
working off the same neighbours from the top of its stack. -/
theorem recursiveDFSLoop_spec_simulation (g0 : Graph) (fuel : Nat)
    (hcall : ∀ (node : Node) (s r : RecState) (rest : List Node),
      recursiveDFS fuel node s = some r → node ∉ s.visited →
      (∀ x, neighbors s.graph x = neighbors g0 x) →
      ∃ n, ∀ m, whileLoop specDfsCond (specDfsBody g0) (n + m)
          { stack := node :: rest, visited := s.visited, out := s.out }
        = whileLoop specDfsCond (specDfsBody g0) m
          { stack := rest, visited := r.visited, out := r.out }) :
    ∀ (ns : List Node) (s r : RecState) (rest : List Node),
      recursiveDFSLoop fuel ns s = some r →
      (∀ x, neighbors s.graph x = neighbors g0 x) →
      ∃ n, ∀ m, whileLoop specDfsCond (specDfsBody g0) (n + m)
          { stack := ns ++ rest, visited := s.visited, out := s.out }
        = whileLoop specDfsCond (specDfsBody g0) m
          { stack := rest, visited := r.visited, out := r.out } := by
  intro ns
  induction ns with
  | nil =>
    intro s r rest h _
    rw [recursiveDFSLoop_nil] at h
    cases Option.some.inj h
    exact ⟨0, fun m => by simp⟩
  | cons nb ns ih =>
    intro s r rest h hg
    by_cases hv : nb ∈ s.visited
    · rw [recursiveDFSLoop_cons_skip _ _ _ _ hv] at h
      obtain ⟨n, hn⟩ := ih s r rest h hg
      refine ⟨n + 1, fun m => ?_⟩
      rw [show n + 1 + m = (n + m) + 1 by omega, List.cons_append,
        whileLoop_step _ _ _ _ (by simp [specDfsCond]),
        specDfsBody_skip g0 _ nb _ rfl hv]
      exact hn m
    · rw [recursiveDFSLoop_cons_call _ _ _ _ hv] at h
      obtain ⟨s1, h1, h2⟩ := Option.bind_eq_some.1 h
      obtain ⟨n1, hn1⟩ := hcall nb s s1 (ns ++ rest) h1 hv hg
      obtain ⟨n2, hn2⟩ := ih s1 r rest h2
        (fun x => by rw [(recursiveDFS_neighbors fuel).1 nb s s1 h1 x, hg])
      refine ⟨n1 + n2, fun m => ?_⟩
      rw [show n1 + n2 + m = n1 + (n2 + m) by omega, List.cons_append, hn1, hn2]

/-- A completed call `recursiveDFS(node, visited)` on an unvisited node is
matched by the specified loop from the moment `node` is on top of the stack
until the stack is back to what was below it. -/
theorem recursiveDFS_spec_simulation (g0 : Graph) :
    ∀ (fuel : Nat) (node : Node) (s r : RecState) (rest : List Node),
      recursiveDFS fuel node s = some r → node ∉ s.visited →
      (∀ x, neighbors s.graph x = neighbors g0 x) →
      ∃ n, ∀ m, whileLoop specDfsCond (specDfsBody g0) (n + m)
          { stack := node :: rest, visited := s.visited, out := s.out }
        = whileLoop specDfsCond (specDfsBody g0) m
          { stack := rest, visited := r.visited, out := r.out } := by
  intro fuel
  induction fuel with
  | zero =>
    intro node s r rest h
    simp [recursiveDFS] at h
  | succ fuel ih =>
    intro node s r rest h hv hg
    rw [recursiveDFS_succ] at h
    obtain ⟨n, hn⟩ := recursiveDFSLoop_spec_simulation g0 fuel ih _ _ r rest h
      (fun x => by
        show neighbors (graphIndex s.graph node).2 x = _
        rw [neighbors_graphIndex, hg])
    refine ⟨n + 1, fun m => ?_⟩
    rw [show n + 1 + m = (n + m) + 1 by omega,
      whileLoop_step _ _ _ _ (by simp [specDfsCond]),
      specDfsBody_visit g0 _ node rest rfl hv, ← hg node]
    exact hn m

/-- C15. `iterativeDFS` as coded, which pushes a neighbour only if it is not
yet visited, emits the same sequence as the specified algorithm, which pushes
every neighbour and relies on the check after the pop: both complete with a
common sequence, and whenever both complete their sequences are equal. -/
theorem iterativeDFS_push_check_redundant (g : Graph) (start : Node) :
    (∃ (fuelC fuelS : Nat) (out : List Node) (g2 : Graph),
      iterativeDFS fuelC g start = some (out, g2) ∧
      specIterativeDFS fuelS g start = some out) ∧
    ∀ (fuelC fuelS : Nat) (a : List Node × Graph) (b : List Node),
      iterativeDFS fuelC g start = some a → specIterativeDFS fuelS g start = some b →
      a.1 = b := by
  obtain ⟨fr, n, r, hr, hloop, _⟩ := dfs_run g start
  obtain ⟨k, hk⟩ := recursiveDFS_spec_simulation g fr start _ r [] hr (by simp)
    (fun _ => rfl)
  have hspec : whileLoop specDfsCond (specDfsBody g) k
      { stack := [start], visited := [], out := [] }
      = some { stack := [], visited := r.visited, out := r.out } := by
    have h0 := whileLoop_exit specDfsCond (specDfsBody g) 0
      { stack := [], visited := r.visited, out := r.out } rfl
    have := hk 0
    rw [h0] at this
    exact this
  have hi := iterativeDFS_of_loop hloop
  have hs : specIterativeDFS k g start = some r.out := by
    simp [specIterativeDFS, hspec]
  refine ⟨⟨n, k, r.out, r.graph, hi, hs⟩, ?_⟩
  intro fuelC fuelS a b ha hb
  rw [iterativeDFS_det g start _ _ _ _ ha hi]
  unfold specIterativeDFS at hb
  obtain ⟨rb, hrb, rfl⟩ := Option.map_eq_some'.1 hb
  rw [whileLoop_det _ _ _ _ _ _ _ hrb hspec]

/-! ## Invariants at every iteration -/

theorem bfsInv_atLoopHead (g : Graph) (start : Node) (s : BFSState)
    (h : AtLoopHead bfsCond bfsBody (bfsInit g start) s) : ∃ lev, BFSInv g start lev s := by
  induction h with
  | entry => exact ⟨_, bfsInv_init g start⟩
  | next _ hc ih =>
    obtain ⟨lev, hinv⟩ := ih
    exact (bfsInv_step hinv hc).1

theorem recBFSCall_atLoopHead (s0 s : BFSState) (h : RecBFSCall s0 s) :
    AtLoopHead bfsCond bfsBody s0 s := by
  induction h with
  | first => exact AtLoopHead.entry
  | @inner t node rest _ hq ih =>
    have hb : bfsBody t =
        { graph := (graphIndex t.graph node).2,
          queue := ((graphIndex t.graph node).1.foldl bfsVisit (rest, t.visited)).1,
          visited := ((graphIndex t.graph node).1.foldl bfsVisit (rest, t.visited)).2,
          out := t.out ++ [node] } := by
      unfold bfsBody
      rw [hq]
    rw [← hb]
    exact AtLoopHead.next ih ((bfsCond_iff t).2 ⟨node, rest, hq⟩)

/-- An iteration of the BFS loop extends the list `out ++ queue` at its end,
by the nodes it enqueues; that list is the sequence of all nodes enqueued so
far. -/
theorem bfsBody_enqueues (s : BFSState) (hc : bfsCond s = true) :
    ∃ new : List Node, (bfsBody s).queue = s.queue.tail ++ new ∧
      (bfsBody s).out ++ (bfsBody s).queue = (s.out ++ s.queue) ++ new := by
  obtain ⟨node, rest, hq⟩ := (bfsCond_iff s).1 hc
  obtain ⟨new, h1, _⟩ := bfsVisit_foldl (neighbors s.graph node) rest s.visited
  refine ⟨new, ?_, ?_⟩
  · rw [bfsBody_cons s node rest hq, hq]
    exact h1
  · rw [bfsBody_cons s node rest hq, hq]
    show (s.out ++ [node]) ++ _ = _
    rw [h1]
    simp

/-- C16. At the start of every iteration of the loop of `iterativeBFS`, and at
every call of `recursiveBFS` made through `startRecursiveBFS`, the queue holds
pairwise distinct nodes, every queued node is in `visited`, and `visited` is
exactly the disjoint union of the emitted nodes and the queued nodes.  The
list `out ++ queue`, which grows only by the nodes an iteration enqueues, has
no duplicate: no node is enqueued more than once. -/
theorem bfs_queue_invariant (g : Graph) (start : Node) (s : BFSState)
    (h : AtLoopHead bfsCond bfsBody (bfsInit g start) s ∨
      RecBFSCall (bfsInit g start) s) :
    s.queue.Nodup ∧ (∀ x ∈ s.queue, x ∈ s.visited) ∧
    (∀ x, x ∈ s.visited ↔ x ∈ s.out ∨ x ∈ s.queue) ∧
    (∀ x ∈ s.out, x ∉ s.queue) ∧
    (s.out ++ s.queue).Nodup ∧
    (bfsCond s = true → ∃ new : List Node, (bfsBody s).queue = s.queue.tail ++ new ∧
      (bfsBody s).out ++ (bfsBody s).queue = (s.out ++ s.queue) ++ new) := by
  have hl : AtLoopHead bfsCond bfsBody (bfsInit g start) s := by
    rcases h with h | h
    · exact h
    · exact recBFSCall_atLoopHead _ _ h
  obtain ⟨lev, hinv⟩ := bfsInv_atLoopHead g start s hl
  have hnd := hinv.nodup
  rw [List.nodup_append] at hnd
  refine ⟨hnd.2.1, ?_, ?_, ?_, hinv.nodup, bfsBody_enqueues s⟩
  · intro x hx
    exact (hinv.visited x).2 (List.mem_append_right _ hx)
  · intro x
    rw [hinv.visited x, List.mem_append]
  · intro x hx hq
    exact hnd.2.2 hx hq

/-- C16, at a concrete input: the state after the first iteration of the BFS
loop on the graph literal from `A`. -/
theorem bfs_queue_invariant_witness :
    (bfsBody (bfsInit graph 'A')).queue = ['B', 'C'] ∧
    (bfsBody (bfsInit graph 'A')).queue.Nodup ∧
    (∀ x ∈ (bfsBody (bfsInit graph 'A')).queue, x ∈ (bfsBody (bfsInit graph 'A')).visited) :=
  ⟨by decide,
    (bfs_queue_invariant graph 'A' (bfsBody (bfsInit graph 'A'))
      (Or.inl (AtLoopHead.next AtLoopHead.entry (by decide)))).1,
    (bfs_queue_invariant graph 'A' (bfsBody (bfsInit graph 'A'))
      (Or.inl (AtLoopHead.next AtLoopHead.entry (by decide)))).2.1⟩

theorem dfsInv_atLoopHead (g : Graph) (start : Node) (s : DFSState)
    (h : AtLoopHead dfsCond dfsBody (dfsInit g start) s) : DFSInv g start s := by
  induction h with
  | entry => exact dfsInv_init g start
  | next _ hc ih => exact dfsInv_step ih hc

/-- The stack left by an iteration of the loop of `iterativeDFS` is the stack
below the popped node with the nodes of `dfsPushes` pushed on it. -/
theorem dfsBody_stack (s : DFSState) :
    (dfsBody s).stack = (dfsPushes s).reverse ++ s.stack.tail := by
  cases hq : s.stack with
  | nil => simp [dfsBody, dfsPushes, hq]
  | cons node rest =>
    by_cases hv : node ∈ s.visited
    · rw [dfsBody_skip s node rest hq hv]
      simp [dfsPushes, hq, hv]
    · rw [dfsBody_visit s node rest hq hv]
      simp only [dfsPushes, hq, hv, if_false, List.tail_cons, graphIndex_fst,
        List.filter_reverse, List.reverse_reverse]

/-- C17, as stated, fails: on the graph literal from `A` the loop of
`iterativeDFS` pushes `C` twice (from `A`, and again from `F` while `C` is
still unvisited). -/
theorem dfs_pushes_twice_counterexample :
    iterativeDFS 7 graph 'A' = some (['A', 'B', 'D', 'E', 'F', 'C'], graph) ∧
    'A' :: dfsPushLog 7 (dfsInit graph 'A') = ['A', 'C', 'B', 'E', 'D', 'F', 'C'] ∧
    ('A' :: dfsPushLog 7 (dfsInit graph 'A')).count 'C' = 2 := by
  decide

/-- C17, amended. In every iteration of the loop of `iterativeDFS` the nodes
pushed are not in `visited` (not even the node just marked), and no node is
emitted more than once: `visited` is the duplicate-free emitted sequence. -/
theorem dfs_pushes_unvisited (g : Graph) (start : Node) (s : DFSState)
    (h : AtLoopHead dfsCond dfsBody (dfsInit g start) s) :
    (∀ x ∈ dfsPushes s, x ∉ (dfsBody s).visited) ∧
    (dfsBody s).stack = (dfsPushes s).reverse ++ s.stack.tail ∧
    s.out.Nodup ∧ (∀ x, x ∈ s.visited ↔ x ∈ s.out) := by
  have hinv := dfsInv_atLoopHead g start s h
  refine ⟨?_, dfsBody_stack s, hinv.nodup, hinv.visited⟩
  intro x hx
  cases hq : s.stack with
  | nil => simp [dfsPushes, hq] at hx
  | cons node rest =>
    by_cases hv : node ∈ s.visited
    · simp [dfsPushes, hq, hv] at hx
    · rw [dfsBody_visit s node rest hq hv]
      simp only [dfsPushes, hq, hv, if_false, List.mem_filter, decide_eq_true_eq] at hx
      exact hx.2

/-- C17 amended, at a concrete input: the second iteration on the graph
literal from `A` pops `B` and pushes `E` and `D`, and not the visited `A`. -/
theorem dfs_pushes_unvisited_witness :
    dfsPushes (dfsBody (dfsInit graph 'A')) = ['E', 'D'] ∧
    (∀ x ∈ dfsPushes (dfsBody (dfsInit graph 'A')),
      x ∉ (dfsBody (dfsBody (dfsInit graph 'A'))).visited) :=
  ⟨by decide,
    (dfs_pushes_unvisited graph 'A' (dfsBody (dfsInit graph 'A'))
      (AtLoopHead.next AtLoopHead.entry (by decide))).1⟩

/-! ## The first layer of the breadth-first order -/

theorem mem_firstOccurrences (l : List Node) (x : Node) :
    x ∈ firstOccurrences l ↔ x ∈ l := by
  induction l with
  | nil => simp [firstOccurrences]
  | cons y ys ih =>
    simp only [firstOccurrences, List.mem_cons, List.mem_filter, decide_eq_true_eq, ih]
    by_cases h : x = y <;> simp [h]

/-- The neighbour loop of the BFS programs appends to the queue the distinct
neighbours not yet visited, in the order of their first occurrence. -/
theorem bfsVisit_foldl_fst (ns : List Node) : ∀ (q V : List Node),
    (ns.foldl bfsVisit (q, V)).1
      = q ++ (firstOccurrences ns).filter (fun x => decide (x ∉ V)) := by
  induction ns with
  | nil => intro q V; simp [firstOccurrences]
  | cons nb ns ih =>
    intro q V
    rw [List.foldl_cons]
    by_cases hv : nb ∈ V
    · have hb : bfsVisit (q, V) nb = (q, V) := by simp [bfsVisit, hv]
      rw [hb, ih]
      congr 1
      simp only [firstOccurrences, List.filter_cons, hv, not_true_eq_false, decide_False,
        List.filter_filter]
      simp only [Bool.false_eq_true, if_false]
      apply List.filter_congr
      intro x _
      by_cases hx : x ∈ V
      · simp [hx]
      · have : x ≠ nb := fun h => hx (h ▸ hv)
        simp [hx, this]
    · have hb : bfsVisit (q, V) nb = (q ++ [nb], V.insert nb) := by simp [bfsVisit, hv]
      rw [hb, ih]
      simp only [firstOccurrences, List.filter_cons, hv, not_false_eq_true, decide_True,
        if_true, List.filter_filter, List.append_assoc, List.singleton_append]
      congr 2
      apply List.filter_congr
      intro x _
      simp only [List.mem_insert_iff, not_or]
      by_cases hx : x ∈ V <;> by_cases hn : x = nb <;> simp [hx, hn]

/-- The nodes in the queue are emitted next, in queue order. -/
theorem bfs_out_prefix :
    ∀ (n : Nat) (s r : BFSState), whileLoop bfsCond bfsBody n s = some r →
      ∃ tail, r.out = s.out ++ s.queue ++ tail := by
  intro n
  induction n with
  | zero =>
    intro s r h
    cases hc : bfsCond s with
    | true => simp [whileLoop, hc] at h
    | false =>
      rw [whileLoop_exit _ _ _ _ hc] at h
      cases Option.some.inj h
      exact ⟨[], by simp [(bfsCond_false_iff s).1 hc]⟩
  | succ n ih =>
    intro s r h
    cases hc : bfsCond s with
    | false =>
      rw [whileLoop_exit _ _ _ _ hc] at h
      cases Option.some.inj h
      exact ⟨[], by simp [(bfsCond_false_iff s).1 hc]⟩
    | true =>
      rw [whileLoop_step _ _ _ _ hc] at h
      obtain ⟨tail, ht⟩ := ih _ _ h
      obtain ⟨new, _, hn⟩ := bfsBody_enqueues s hc
      rw [hn] at ht
      exact ⟨new ++ tail, by rw [ht]; simp⟩

/-- C18. `iterativeBFS(start)` emits `start` first and then, immediately
after it and before any other node, the neighbours of `start` other than
`start`, each once, in the order of their first occurrence in the stored
neighbour list of `start`. -/
theorem iterativeBFS_first_layer (g : Graph) (start : Node) :
    ∃ (fuel : Nat) (out : List Node) (g2 : Graph) (tail : List Node),
      iterativeBFS fuel g start = some (out, g2) ∧
      out = start ::
        ((firstOccurrences (neighbors g start)).filter (fun x => decide (x ≠ start)) ++ tail) ∧
      out.Nodup ∧ ∀ x ∈ tail, x ≠ start ∧ x ∉ neighbors g start := by
  obtain ⟨r, lev, hr, hinv, hq, _⟩ := bfs_run g start
  have hc : bfsCond (bfsInit g start) = true := rfl
  have h1 := whileLoop_mono _ _ _ (r.out.length + 1) _ _ hr (Nat.le_succ _)
  rw [whileLoop_step _ _ _ _ hc] at h1
  obtain ⟨tail, ht⟩ := bfs_out_prefix _ _ _ h1
  have hb := bfsBody_cons (bfsInit g start) start [] rfl
  have hout : (bfsBody (bfsInit g start)).out = [start] := by rw [hb]; rfl
  have hqueue : (bfsBody (bfsInit g start)).queue
      = (firstOccurrences (neighbors g start)).filter (fun x => decide (x ≠ start)) := by
    rw [hb]
    show ((neighbors g start).foldl bfsVisit ([], [start])).1 = _
    rw [bfsVisit_foldl_fst, List.nil_append]
    apply List.filter_congr
    intro x _
    simp
  rw [hout, hqueue] at ht
  have hnd : r.out.Nodup := by
    have := hinv.nodup
    rwa [hq, List.append_nil] at this
  have heq : r.out = start ::
      ((firstOccurrences (neighbors g start)).filter (fun x => decide (x ≠ start)) ++ tail) := by
    rw [ht]; simp
  refine ⟨_, r.out, r.graph, tail, iterativeBFS_of_loop hr, heq, hnd, ?_⟩
  intro x hx
  rw [heq, List.nodup_cons, List.nodup_append] at hnd
  have hxs : x ≠ start := by
    rintro rfl
    exact hnd.1 (List.mem_append_right _ hx)
  refine ⟨hxs, fun hnb => ?_⟩
  have hmem : x ∈ (firstOccurrences (neighbors g start)).filter
      (fun x => decide (x ≠ start)) := by
    rw [List.mem_filter]
    exact ⟨(mem_firstOccurrences _ _).2 hnb, by simpa using hxs⟩
  exact hnd.2.2.2 hmem hx

/-! ## Number of iterations of the loop of `iterativeDFS` -/

theorem neighborTotal_append (g : Graph) (l₁ l₂ : List Node) :
    neighborTotal g (l₁ ++ l₂) = neighborTotal g l₁ + neighborTotal g l₂ := by
  simp [neighborTotal]

/-- The loop of `iterativeDFS` makes a definite number `k` of iterations, and
`k` is bounded by the height of the stack plus the total length of the
neighbour lists of the nodes emitted from then on. -/
theorem dfs_iterations_bound (g0 : Graph) :
    ∀ (n : Nat) (s r : DFSState), whileLoop dfsCond dfsBody n s = some r →
      (∀ x, neighbors s.graph x = neighbors g0 x) →
      ∃ k, (∀ m, (whileLoop dfsCond dfsBody m s).isSome = true ↔ k ≤ m) ∧
        k + neighborTotal g0 s.out ≤ s.stack.length + neighborTotal g0 r.out := by
  intro n
  induction n with
  | zero =>
    intro s r h _
    cases hc : dfsCond s with
    | true => simp [whileLoop, hc] at h
    | false =>
      rw [whileLoop_exit _ _ _ _ hc] at h
      cases Option.some.inj h
      exact ⟨0, fun m => by simp [whileLoop_exit _ _ _ _ hc], by omega⟩
  | succ n ih =>
    intro s r h hg
    cases hc : dfsCond s with
    | false =>
      rw [whileLoop_exit _ _ _ _ hc] at h
      cases Option.some.inj h
      exact ⟨0, fun m => by simp [whileLoop_exit _ _ _ _ hc], by omega⟩
    | true =>
      rw [whileLoop_step _ _ _ _ hc] at h
      obtain ⟨node, rest, hq⟩ := (dfsCond_iff s).1 hc
      have hiff : ∀ k, (∀ m, (whileLoop dfsCond dfsBody m (dfsBody s)).isSome = true ↔ k ≤ m) →
          ∀ m, (whileLoop dfsCond dfsBody m s).isSome = true ↔ k + 1 ≤ m := by
        intro k hk m
        cases m with
        | zero => simp [whileLoop, hc]
        | succ m =>
          rw [whileLoop_step _ _ _ _ hc, hk m]
          omega
      by_cases hv : node ∈ s.visited
      · have hb := dfsBody_skip s node rest hq hv
        obtain ⟨k, hk, hle⟩ := ih _ _ h (by rw [hb]; exact hg)
        refine ⟨k + 1, hiff k hk, ?_⟩
        rw [hb] at hle
        rw [hq, List.length_cons]
        simp only at hle
        omega
      · have hb := dfsBody_visit s node rest hq hv
        obtain ⟨k, hk, hle⟩ := ih _ _ h (by
          intro x
          rw [hb]
          show neighbors (graphIndex s.graph node).2 x = _
          rw [neighbors_graphIndex, hg])
        refine ⟨k + 1, hiff k hk, ?_⟩
        rw [hb] at hle
        simp only [neighborTotal_append, List.length_append] at hle
        have hf := List.length_filter_le
          (fun x => decide (x ∉ s.visited.insert node)) (neighbors s.graph node)
        have hone : neighborTotal g0 [node] = (neighbors s.graph node).length := by
          simp [neighborTotal, hg]
        rw [hq, List.length_cons]
        omega

/-- C19. The loop of `iterativeDFS` terminates, although the stack may hold a
node several times: it makes exactly `k` iterations (it exits within `m`
iterations exactly when `k ≤ m`), and `k` is at most 1 plus the total length of
the neighbour lists of the nodes reachable from `start`, which are the
nodes of the duplicate-free emitted sequence. -/
theorem iterativeDFS_iterations_bound (g : Graph) (start : Node) :
    ∃ (k : Nat) (out : List Node) (g2 : Graph),
      iterativeDFS k g start = some (out, g2) ∧
      (∀ m, (iterativeDFS m g start).isSome = true ↔ k ≤ m) ∧
      out.Nodup ∧ (∀ v, v ∈ out ↔ Reachable g start v) ∧
      k ≤ 1 + neighborTotal g out := by
  obtain ⟨_, n, r, _, hloop, hinv⟩ := dfs_run g start
  obtain ⟨k, hk, hle⟩ := dfs_iterations_bound g n _ _ hloop (fun _ => rfl)
  have hsome := (hk k).2 (le_refl _)
  obtain ⟨r2, hr2⟩ := Option.isSome_iff_exists.1 hsome
  have heq := whileLoop_det _ _ _ _ _ _ _ hr2 hloop
  rw [heq] at hr2
  refine ⟨k, r.out, r.graph, iterativeDFS_of_loop hr2, ?_, hinv.nodup,
    dfsInv_mem_out_iff hinv rfl, ?_⟩
  · intro m
    rw [← hk m]
    simp [iterativeDFS]
  · have h0 : neighborTotal g (dfsInit g start).out = 0 := rfl
    have h1 : (dfsInit g start).stack.length = 1 := rfl
    simp only [h0, h1] at hle
    exact hle

/-! ## Closed graphs -/

/-- Looking up an existing key leaves the store as it is. -/
theorem graphIndex_of_key (g : Graph) (k : Node) (h : (g.lookup k).isSome = true) :
    (graphIndex g k).2 = g := by
  unfold graphIndex
  cases hl : g.lookup k with
  | none => simp [hl] at h
  | some ns => rfl

theorem closed_neighbors {g : Graph} (hclosed : Closed g) {u x : Node}
    (hx : x ∈ neighbors g u) : (g.lookup x).isSome = true :=
  hclosed x (mem_targets_of_mem_neighbors hx)

/-- On a closed graph the BFS loop keeps the store, and only keys are queued
or emitted. -/
theorem bfs_closed_step {g : Graph} (hclosed : Closed g) (s : BFSState)
    (h : s.graph = g ∧ (∀ x ∈ s.queue, (g.lookup x).isSome = true) ∧
      ∀ x ∈ s.out, (g.lookup x).isSome = true)
    (hc : bfsCond s = true) :
    (bfsBody s).graph = g ∧ (∀ x ∈ (bfsBody s).queue, (g.lookup x).isSome = true) ∧
      ∀ x ∈ (bfsBody s).out, (g.lookup x).isSome = true := by
  obtain ⟨hg, hqk, hok⟩ := h
  obtain ⟨node, rest, hq⟩ := (bfsCond_iff s).1 hc
  have hnode : (g.lookup node).isSome = true := hqk node (by rw [hq]; simp)
  obtain ⟨new, h1, _, _, h4, _⟩ := bfsVisit_foldl (neighbors s.graph node) rest s.visited
  rw [bfsBody_cons s node rest hq]
  refine ⟨?_, ?_, ?_⟩
  · show (graphIndex s.graph node).2 = g
    rw [hg]
    exact graphIndex_of_key g node hnode
  · intro x hx
    have hx2 : x ∈ rest ++ new := h1 ▸ hx
    rcases List.mem_append.1 hx2 with hx2 | hx2
    · exact hqk x (by rw [hq]; exact List.mem_cons_of_mem _ hx2)
    · have := (h4 x hx2).2
      rw [hg] at this
      exact closed_neighbors hclosed this
  · intro x hx
    rcases List.mem_append.1 hx with hx | hx
    · exact hok x hx
    · have : x = node := by simpa using hx
      rw [this]; exact hnode

/-- On a closed graph the loop of `iterativeDFS` keeps the store, and only
keys are stacked or emitted. -/
theorem dfs_closed_step {g : Graph} (hclosed : Closed g) (s : DFSState)
    (h : s.graph = g ∧ (∀ x ∈ s.stack, (g.lookup x).isSome = true) ∧
      ∀ x ∈ s.out, (g.lookup x).isSome = true)
    (hc : dfsCond s = true) :
    (dfsBody s).graph = g ∧ (∀ x ∈ (dfsBody s).stack, (g.lookup x).isSome = true) ∧
      ∀ x ∈ (dfsBody s).out, (g.lookup x).isSome = true := by
  obtain ⟨hg, hsk, hok⟩ := h
  obtain ⟨node, rest, hq⟩ := (dfsCond_iff s).1 hc
  have hnode : (g.lookup node).isSome = true := hsk node (by rw [hq]; simp)
  have hrest : ∀ x ∈ rest, (g.lookup x).isSome = true :=
    fun x hx => hsk x (by rw [hq]; exact List.mem_cons_of_mem _ hx)
  by_cases hv : node ∈ s.visited
  · rw [dfsBody_skip s node rest hq hv]
    exact ⟨hg, hrest, hok⟩
  · rw [dfsBody_visit s node rest hq hv]
    refine ⟨?_, ?_, ?_⟩
    · show (graphIndex s.graph node).2 = g
      rw [hg]
      exact graphIndex_of_key g node hnode
    · intro x hx
      rcases List.mem_append.1 hx with hx | hx
      · have := (List.mem_filter.1 hx).1
        rw [hg] at this
        exact closed_neighbors hclosed this
      · exact hrest x hx
    · intro x hx
      rcases List.mem_append.1 hx with hx | hx
      · exact hok x hx
      · have : x = node := by simpa using hx
        rw [this]; exact hnode

/-- C20. On a closed graph and from a start node that is a key, every
`graph[node]` lookup of the four traversals (one per emitted node) is for an
existing key, and the store each traversal leaves is the store it was given. -/
theorem closed_graph_store_unchanged (g : Graph) (start : Node)
    (hclosed : Closed g) (hstart : (g.lookup start).isSome = true) :
    (∃ (fuel : Nat) (out : List Node), iterativeBFS fuel g start = some (out, g) ∧
      ∀ k ∈ out, (g.lookup k).isSome = true) ∧
    (∃ (fuel : Nat) (out : List Node), iterativeDFS fuel g start = some (out, g) ∧
      ∀ k ∈ out, (g.lookup k).isSome = true) ∧
    (∃ (fuel : Nat) (out : List Node), startRecursiveBFS fuel g start = some (out, g) ∧
      ∀ k ∈ out, (g.lookup k).isSome = true) ∧
    (∃ (fuel : Nat) (out : List Node), startRecursiveDFS fuel g start = some (out, g) ∧
      ∀ k ∈ out, (g.lookup k).isSome = true) := by
  obtain ⟨rb, _, hrb, _, _, _⟩ := bfs_run g start
  have hbi := (whileLoop_inv bfsCond bfsBody
    (fun s => s.graph = g ∧ (∀ x ∈ s.queue, (g.lookup x).isSome = true) ∧
      ∀ x ∈ s.out, (g.lookup x).isSome = true)
    (bfs_closed_step hclosed) _ _ _
    ⟨rfl, by intro x hx; have : x = start := by simpa [bfsInit] using hx
             rw [this]; exact hstart, by simp [bfsInit]⟩ hrb).1
  obtain ⟨fr, n, r, hr, hloop, _⟩ := dfs_run g start
  have hdi := (whileLoop_inv dfsCond dfsBody
    (fun s => s.graph = g ∧ (∀ x ∈ s.stack, (g.lookup x).isSome = true) ∧
      ∀ x ∈ s.out, (g.lookup x).isSome = true)
    (dfs_closed_step hclosed) _ _ _
    ⟨rfl, by intro x hx; have : x = start := by simpa [dfsInit] using hx
             rw [this]; exact hstart, by simp [dfsInit]⟩ hloop).1
  have hb := iterativeBFS_of_loop hrb
  rw [hbi.1] at hb
  have hd := iterativeDFS_of_loop hloop
  have hrd := startRecursiveDFS_of_call hr
  have hrg : r.graph = g := hdi.1
  rw [hrg] at hd hrd
  refine ⟨⟨_, rb.out, hb, hbi.2.2⟩, ⟨n, r.out, hd, hdi.2.2⟩,
    ⟨rb.out.length, rb.out, ?_, hbi.2.2⟩, ⟨fr, r.out, hrd, hdi.2.2⟩⟩
  rw [startRecursiveBFS_eq]
  exact hb

/-- C20, on the graph literal: it is closed, and from every start in `A..F`
each traversal leaves it unchanged. -/
theorem closed_graph_store_unchanged_witness :
    Closed graph ∧
    ∀ start ∈ ['A', 'B', 'C', 'D', 'E', 'F'],
      (graph.lookup start).isSome = true ∧
      (∃ (fuel : Nat) (out : List Node), iterativeBFS fuel graph start = some (out, graph) ∧
        ∀ k ∈ out, (graph.lookup k).isSome = true) ∧
      (∃ (fuel : Nat) (out : List Node), iterativeDFS fuel graph start = some (out, graph) ∧
        ∀ k ∈ out, (graph.lookup k).isSome = true) ∧
      (∃ (fuel : Nat) (out : List Node),
        startRecursiveBFS fuel graph start = some (out, graph) ∧
        ∀ k ∈ out, (graph.lookup k).isSome = true) ∧
      (∃ (fuel : Nat) (out : List Node),
        startRecursiveDFS fuel graph start = some (out, graph) ∧
        ∀ k ∈ out, (graph.lookup k).isSome = true) :=
  ⟨by unfold Closed; decide,
    fun start hs =>
      have hk : ∀ k ∈ ['A', 'B', 'C', 'D', 'E', 'F'], (graph.lookup k).isSome = true := by
        decide
      ⟨hk start hs,
        closed_graph_store_unchanged graph start (by unfold Closed; decide) (hk start hs)⟩⟩

end Traversal
